import Mathlib

/-!
Shallow embedding of the buddy memory allocator in `src/buddy_system.py`
(class `BuddySystem`, plus the address-based deallocation dispatch performed
by `BuddySystemGUI.deallocate_block`), and proofs of the specification
claims about it.

Python dicts are modelled as insertion-ordered association lists (Python 3
dicts preserve insertion order and append new keys at the end); Python lists
are Lean lists; tuples are products.  Requested sizes are `Int` because the
Python code accepts arbitrary integers; addresses and block sizes are `Nat`.
-/

/-- A memory block `(start, end)`; the Python code represents blocks as
2-tuples of integers. -/
abbrev Block := Nat × Nat

/-- `self.memory`: dict from block size to the list of free blocks of that
size. -/
abbrev FreeTable := List (Nat × List Block)

/-- `self.allocated`: dict from address to `(requested size, block size)`. -/
abbrev AllocTable := List (Nat × (Int × Nat))

/-- Python `d.get(k)` / `k in d`: the first entry with the given key. -/
def dictGet? {α : Type} (m : List (Nat × α)) (k : Nat) : Option α :=
  match m with
  | [] => none
  | (k', v) :: rest => if k' = k then some v else dictGet? rest k

/-- Python `d[k] = v`: replace the value at key `k` in place, or append a new
entry at the end when the key is absent (Python dict insertion order). -/
def dictSet {α : Type} (m : List (Nat × α)) (k : Nat) (v : α) : List (Nat × α) :=
  match m with
  | [] => [(k, v)]
  | (k', v') :: rest => if k' = k then (k, v) :: rest else (k', v') :: dictSet rest k v

/-- Python `del d[k]` (guarded by `k in d`): remove the first entry with key
`k`; no-op when the key is absent. -/
def dictDel {α : Type} (m : List (Nat × α)) (k : Nat) : List (Nat × α) :=
  match m with
  | [] => []
  | (k', v') :: rest => if k' = k then rest else (k', v') :: dictDel rest k

/-- The list of free blocks recorded at size `s` (`self.memory.get(s, [])`). -/
def freeLookup (m : FreeTable) (s : Nat) : List Block :=
  (dictGet? m s).getD []

/-- Python `d.setdefault(k, []).append(b)` on the free table: extend the
size class in place, creating it (at the end of the dict) when absent. -/
def memAppend (m : FreeTable) (k : Nat) (b : Block) : FreeTable :=
  dictSet m k (freeLookup m k ++ [b])

/-- All free blocks in the table, with multiplicity. -/
def freeBlocks (m : FreeTable) : List Block :=
  (m.map (fun p => p.2)).flatten

/-- The blocks described by the allocation table: entry `a ↦ (req, bs)`
stands for the live block `(a, a + bs)`. -/
def allocBlocks (a : AllocTable) : List Block :=
  a.map (fun e => (e.1, e.1 + e.2.2))

/-- Total number of free blocks (used as a termination measure for the
recursive buddy coalescing). -/
def totalBlocks (m : FreeTable) : Nat :=
  (m.map (fun p => p.2.length)).sum

/-- Termination measure for the allocate loop: every successful split
strictly decreases it (by `bs`). -/
def phi (bs : Nat) (m : FreeTable) : Nat :=
  (m.map (fun p => p.2.length * (p.1 - bs))).sum

/-- Fuel-driven power-of-two test (structural recursion so that the kernel
can evaluate it with `decide`). -/
def isPow2Aux : Nat → Nat → Bool
  | _, 0 => false
  | 0, _ + 1 => false
  | _ + 1, 1 => true
  | fuel + 1, n + 2 => (n + 2) % 2 == 0 && isPow2Aux fuel ((n + 2) / 2)

/-- `isPow2 n` decides whether `n` is a power of two. -/
def isPow2 (n : Nat) : Bool := isPow2Aux n n

/-- The state of `BuddySystem`: total capacity and the two tables. -/
structure BuddySystem where
  total_memory : Nat
  memory : FreeTable
  allocated : AllocTable
  deriving DecidableEq, Repr

/-- `BuddySystem.__init__(total_memory)`. -/
def init (total_memory : Nat) : BuddySystem :=
  { total_memory := total_memory
    memory := [(total_memory, [(0, total_memory)])]
    allocated := [] }

/-- The loop of `BuddySystem._find_nearest_power_of_two`: `power = 1;
while power < size: power *= 2; return power`.  The positivity hypothesis
records that Python only ever runs this with `power ≥ 1` (it would diverge
otherwise). -/
def findPow (size : Int) (power : Nat) (h : 0 < power) : Nat :=
  if hc : (power : Int) < size then findPow size (power * 2) (by omega) else power
termination_by size.toNat - power
decreasing_by omega

/-- `BuddySystem._find_nearest_power_of_two(size)`. -/
def find_nearest_power_of_two (size : Int) : Nat :=
  findPow size 1 (by decide)

/-- The loop variable `power` only grows. -/
theorem findPow_ge (size : Int) (power : Nat) (h : 0 < power) :
    power ≤ findPow size power h := by
  induction power, h using findPow.induct size with
  | case1 power h hc ih =>
    rw [findPow]
    split
    · omega
    · omega
  | case2 power h hc =>
    rw [findPow]
    split
    · omega
    · omega

/-- The rounded block size is always positive (even for non-positive
requests, where the helper returns `1`). -/
theorem find_nearest_pos (size : Int) : 0 < find_nearest_power_of_two size :=
  Nat.lt_of_lt_of_le (by decide) (findPow_ge size 1 (by decide))

/-- Flipping a positive bit pattern changes the number. -/
theorem xor_ne_self {a s : Nat} (hs : 0 < s) : a ^^^ s ≠ a := by
  intro h
  have h2 : a ^^^ (a ^^^ s) = a ^^^ a := congrArg (a ^^^ ·) h
  rw [← Nat.xor_assoc, Nat.xor_self, Nat.zero_xor] at h2
  omega

theorem dictGet?_mem {α : Type} {m : List (Nat × α)} {k : Nat} {v : α}
    (h : dictGet? m k = some v) : (k, v) ∈ m := by
  induction m with
  | nil => simp [dictGet?] at h
  | cons p rest ih =>
    obtain ⟨k', v'⟩ := p
    rw [dictGet?] at h
    by_cases hk : k' = k
    · rw [if_pos hk] at h
      subst hk
      cases h
      exact List.mem_cons_self _ _
    · rw [if_neg hk] at h
      exact List.mem_cons_of_mem _ (ih h)

theorem dictGet?_dictSet_self {α : Type} (m : List (Nat × α)) (k : Nat) (v : α) :
    dictGet? (dictSet m k v) k = some v := by
  induction m with
  | nil => simp [dictSet, dictGet?]
  | cons p rest ih =>
    obtain ⟨k', v'⟩ := p
    rw [dictSet]
    by_cases hk : k' = k
    · rw [if_pos hk, dictGet?, if_pos rfl]
    · rw [if_neg hk, dictGet?, if_neg hk]
      exact ih

theorem dictGet?_dictSet_ne {α : Type} (m : List (Nat × α)) (k k' : Nat) (v : α)
    (h : k' ≠ k) : dictGet? (dictSet m k v) k' = dictGet? m k' := by
  have h' : ¬(k = k') := by omega
  induction m with
  | nil => simp [dictSet, dictGet?, h']
  | cons p rest ih =>
    obtain ⟨k₀, v₀⟩ := p
    rw [dictSet]
    by_cases hk : k₀ = k
    · subst hk
      rw [if_pos rfl, dictGet?, dictGet?, if_neg h', if_neg h']
    · rw [if_neg hk, dictGet?, dictGet?]
      by_cases hk' : k₀ = k'
      · rw [if_pos hk', if_pos hk']
      · rw [if_neg hk', if_neg hk', ih]

theorem dictGet?_append_right {α : Type} {m : List (Nat × α)} {k : Nat}
    (h : dictGet? m k = none) (m₂ : List (Nat × α)) :
    dictGet? (m ++ m₂) k = dictGet? m₂ k := by
  induction m with
  | nil => simp
  | cons p rest ih =>
    obtain ⟨k', v'⟩ := p
    rw [dictGet?] at h
    rw [List.cons_append, dictGet?]
    by_cases hk : k' = k
    · rw [if_pos hk] at h; cases h
    · rw [if_neg hk] at h
      rw [if_neg hk]
      exact ih h

theorem freeLookup_ne_nil {m : FreeTable} {k : Nat} (h : freeLookup m k ≠ []) :
    dictGet? m k = some (freeLookup m k) := by
  unfold freeLookup at h ⊢
  cases hg : dictGet? m k with
  | none => rw [hg] at h; simp at h
  | some l => simp

theorem freeLookup_memAppend_self (m : FreeTable) (k : Nat) (b : Block) :
    freeLookup (memAppend m k b) k = freeLookup m k ++ [b] := by
  unfold memAppend freeLookup
  rw [dictGet?_dictSet_self]
  rfl

theorem freeLookup_memAppend_ne (m : FreeTable) (k k' : Nat) (b : Block)
    (h : k' ≠ k) : freeLookup (memAppend m k b) k' = freeLookup m k' := by
  unfold memAppend freeLookup
  rw [dictGet?_dictSet_ne _ _ _ _ h]

theorem mem_freeLookup_memAppend (m : FreeTable) (k : Nat) (b : Block) :
    b ∈ freeLookup (memAppend m k b) k := by
  rw [freeLookup_memAppend_self]
  simp

/-- Bookkeeping equation for `phi` under an in-place update of one size
class. -/
theorem phi_dictSet (bs : Nat) (m : FreeTable) (k : Nat) (l v : List Block)
    (h : dictGet? m k = some l) :
    phi bs (dictSet m k v) + l.length * (k - bs) = phi bs m + v.length * (k - bs) := by
  induction m with
  | nil => simp [dictGet?] at h
  | cons p rest ih =>
    obtain ⟨k', v'⟩ := p
    rw [dictGet?] at h
    rw [dictSet]
    by_cases hk : k' = k
    · rw [if_pos hk] at *
      cases h
      subst hk
      simp only [phi, List.map_cons, List.sum_cons]
      omega
    · rw [if_neg hk] at *
      have hih := ih h
      unfold phi at hih ⊢
      simp only [List.map_cons, List.sum_cons]
      omega

theorem phi_dictSet_none (bs : Nat) (m : FreeTable) (k : Nat) (v : List Block)
    (h : dictGet? m k = none) :
    phi bs (dictSet m k v) = phi bs m + v.length * (k - bs) := by
  induction m with
  | nil => simp [dictSet, phi]
  | cons p rest ih =>
    obtain ⟨k', v'⟩ := p
    rw [dictGet?] at h
    rw [dictSet]
    by_cases hk : k' = k
    · rw [if_pos hk] at h; cases h
    · rw [if_neg hk] at h
      rw [if_neg hk]
      have hih := ih h
      unfold phi at hih ⊢
      simp only [List.map_cons, List.sum_cons]
      omega

theorem phi_memAppend (bs : Nat) (m : FreeTable) (k : Nat) (b : Block) :
    phi bs (memAppend m k b) = phi bs m + (k - bs) := by
  unfold memAppend freeLookup
  cases hg : dictGet? m k with
  | none =>
    rw [phi_dictSet_none bs m k _ hg]
    simp
  | some l =>
    have h1 := phi_dictSet bs m k l ((some l).getD [] ++ [b]) hg
    simp only [Option.getD_some, List.length_append, List.length_cons,
      List.length_nil] at h1 ⊢
    have hexp : (l.length + (0 + 1)) * (k - bs) = l.length * (k - bs) + (k - bs) := by ring
    omega

/-- Bookkeeping equation for `totalBlocks` under an in-place update of one
size class. -/
theorem totalBlocks_dictSet (m : FreeTable) (k : Nat) (l v : List Block)
    (h : dictGet? m k = some l) :
    totalBlocks (dictSet m k v) + l.length = totalBlocks m + v.length := by
  induction m with
  | nil => simp [dictGet?] at h
  | cons p rest ih =>
    obtain ⟨k', v'⟩ := p
    rw [dictGet?] at h
    rw [dictSet]
    by_cases hk : k' = k
    · rw [if_pos hk] at *
      cases h
      subst hk
      simp only [totalBlocks, List.map_cons, List.sum_cons]
      omega
    · rw [if_neg hk] at *
      have hih := ih h
      unfold totalBlocks at hih ⊢
      simp only [List.map_cons, List.sum_cons]
      omega

theorem totalBlocks_dictSet_none (m : FreeTable) (k : Nat) (v : List Block)
    (h : dictGet? m k = none) :
    totalBlocks (dictSet m k v) = totalBlocks m + v.length := by
  induction m with
  | nil => simp [dictSet, totalBlocks]
  | cons p rest ih =>
    obtain ⟨k', v'⟩ := p
    rw [dictGet?] at h
    rw [dictSet]
    by_cases hk : k' = k
    · rw [if_pos hk] at h; cases h
    · rw [if_neg hk] at h
      rw [if_neg hk]
      have hih := ih h
      unfold totalBlocks at hih ⊢
      simp only [List.map_cons, List.sum_cons]
      omega

theorem totalBlocks_memAppend (m : FreeTable) (k : Nat) (b : Block) :
    totalBlocks (memAppend m k b) = totalBlocks m + 1 := by
  unfold memAppend freeLookup
  cases hg : dictGet? m k with
  | none =>
    rw [totalBlocks_dictSet_none m k _ hg]
    simp
  | some l =>
    have h1 := totalBlocks_dictSet m k l ((some l).getD [] ++ [b]) hg
    simp only [Option.getD_some, List.length_append, List.length_cons,
      List.length_nil] at h1 ⊢
    omega

/-- The scan loop of `BuddySystem._split_block`: search sizes
`larger, larger*2, …` up to `total` for a non-empty free list; pop its
first block, bisect it at the midpoint and append the two halves at the
half size.  Returns the Python method's boolean plus the updated table. -/
def splitScan (total : Nat) (mem : FreeTable) (larger : Nat) (h : 0 < larger) :
    Bool × FreeTable :=
  if hle : larger ≤ total then
    match hm : freeLookup mem larger with
    | block :: rest =>
      (true,
        memAppend
          (memAppend (dictSet mem larger rest) (larger / 2) (block.1, (block.1 + block.2) / 2))
          (larger / 2) ((block.1 + block.2) / 2, block.2))
    | [] => splitScan total mem (larger * 2) (by omega)
  else (false, mem)
termination_by total + 1 - larger
decreasing_by omega

/-- `BuddySystem._split_block(size)`: the scan starts at `size * 2`. -/
def split_block (total : Nat) (mem : FreeTable) (size : Nat) (h : 0 < size) :
    Bool × FreeTable :=
  splitScan total mem (size * 2) (by omega)

/-- Characterization of a successful scan: the donor block is popped from
the first non-empty size class `larger * 2 ^ j` visited by the scan, and its
two halves are appended at half the donor's size. -/
theorem splitScan_true_spec (total : Nat) :
    ∀ (mem : FreeTable) (larger : Nat) (h : 0 < larger) (mem' : FreeTable),
    splitScan total mem larger h = (true, mem') →
    ∃ (j : Nat) (blk : Block) (rest : List Block),
      (∀ i, i < j → freeLookup mem (larger * 2 ^ i) = []) ∧
      larger * 2 ^ j ≤ total ∧
      freeLookup mem (larger * 2 ^ j) = blk :: rest ∧
      mem' = memAppend
          (memAppend (dictSet mem (larger * 2 ^ j) rest) (larger * 2 ^ j / 2)
            (blk.1, (blk.1 + blk.2) / 2))
          (larger * 2 ^ j / 2) ((blk.1 + blk.2) / 2, blk.2) := by
  intro mem larger h
  induction larger, h using splitScan.induct total mem with
  | case1 larger h hle blk rest hm =>
    intro mem' heq
    rw [splitScan] at heq
    simp only [hle, dif_pos] at heq
    rw [hm] at heq
    cases heq
    refine ⟨0, blk, rest, ?_, ?_, ?_, ?_⟩
    · intro i hi; omega
    · simpa using hle
    · simpa using hm
    · simp
  | case2 larger h hle hm ih =>
    intro mem' heq
    rw [splitScan] at heq
    simp only [hle, dif_pos] at heq
    rw [hm] at heq
    obtain ⟨j, blk, rest, hemp, hle', hlk, hmem'⟩ := ih mem' heq
    refine ⟨j + 1, blk, rest, ?_, ?_, ?_, ?_⟩
    · intro i hi
      cases i with
      | zero => simpa using hm
      | succ i' =>
        have := hemp i' (by omega)
        have harr : larger * 2 ^ (i' + 1) = larger * 2 * 2 ^ i' := by ring
        rw [harr]
        exact this
    · have harr : larger * 2 ^ (j + 1) = larger * 2 * 2 ^ j := by ring
      rw [harr]; exact hle'
    · have harr : larger * 2 ^ (j + 1) = larger * 2 * 2 ^ j := by ring
      rw [harr]; exact hlk
    · have harr : larger * 2 ^ (j + 1) = larger * 2 * 2 ^ j := by ring
      rw [harr]; exact hmem'
  | case3 larger h hle =>
    intro mem' heq
    rw [splitScan] at heq
    simp only [hle, dif_neg] at heq
    cases heq

/-- Characterization of a failed scan: the table is untouched and every
size class the scan visits is empty. -/
theorem splitScan_false_spec (total : Nat) :
    ∀ (mem : FreeTable) (larger : Nat) (h : 0 < larger) (mem' : FreeTable),
    splitScan total mem larger h = (false, mem') →
    mem' = mem ∧ ∀ i : Nat, larger * 2 ^ i ≤ total → freeLookup mem (larger * 2 ^ i) = [] := by
  intro mem larger h
  induction larger, h using splitScan.induct total mem with
  | case1 larger h hle blk rest hm =>
    intro mem' heq
    rw [splitScan] at heq
    simp only [hle, dif_pos] at heq
    rw [hm] at heq
    cases heq
  | case2 larger h hle hm ih =>
    intro mem' heq
    rw [splitScan] at heq
    simp only [hle, dif_pos] at heq
    rw [hm] at heq
    obtain ⟨hmem', hemp⟩ := ih mem' heq
    refine ⟨hmem', ?_⟩
    intro i hi
    cases i with
    | zero => simpa using hm
    | succ i' =>
      have harr : larger * 2 ^ (i' + 1) = larger * 2 * 2 ^ i' := by ring
      rw [harr] at hi ⊢
      exact hemp i' hi
  | case3 larger h hle =>
    intro mem' heq
    rw [splitScan] at heq
    simp only [hle, dif_neg] at heq
    cases heq
    refine ⟨rfl, ?_⟩
    intro i hi
    have : larger ≤ larger * 2 ^ i := Nat.le_mul_of_pos_right larger (Nat.two_pow_pos i)
    omega

/-- Every successful split strictly decreases the `phi` measure (by at
least the needed block size). -/
theorem splitScan_phi (total bs : Nat) (hbs : 0 < bs) (mem mem' : FreeTable)
    (h2 : 0 < bs * 2) (hs : splitScan total mem (bs * 2) h2 = (true, mem')) :
    phi bs mem' < phi bs mem := by
  obtain ⟨j, blk, rest, _, hle, hlk, hmem'⟩ := splitScan_true_spec total mem (bs * 2) h2 mem' hs
  have hw : bs * 2 * 2 ^ j = 2 * (bs * 2 ^ j) := by ring
  have hhalf : bs * 2 * 2 ^ j / 2 = bs * 2 ^ j := by
    rw [hw]
    exact Nat.mul_div_cancel_left _ (by norm_num)
  have hwge : bs ≤ bs * 2 ^ j := Nat.le_mul_of_pos_right bs (Nat.two_pow_pos j)
  have hget : dictGet? mem (bs * 2 * 2 ^ j) = some (blk :: rest) := by
    have : freeLookup mem (bs * 2 * 2 ^ j) ≠ [] := by rw [hlk]; simp
    have h' := freeLookup_ne_nil this
    rw [hlk] at h'
    exact h'
  have hphi := phi_dictSet bs mem (bs * 2 * 2 ^ j) (blk :: rest) rest hget
  rw [hmem']
  rw [phi_memAppend, phi_memAppend, hhalf]
  simp only [List.length_cons] at hphi
  have hkey : bs * 2 * 2 ^ j - bs = 2 * (bs * 2 ^ j) - bs := by rw [hw]
  rw [hkey] at hphi
  set w := bs * 2 ^ j with hwdef
  have hmul : (rest.length + 1) * (2 * w - bs) = rest.length * (2 * w - bs) + (2 * w - bs) := by
    ring
  omega

/-- The `while block_size <= self.total_memory` loop inside
`BuddySystem.allocate`: take the first free block of the needed size if one
exists, otherwise split a larger block and retry; give up when no split is
possible.  Returns the allocated block (if any) and both updated tables. -/
def allocLoop (total bs : Nat) (sz : Int) (mem : FreeTable) (alloc : AllocTable)
    (hbs : 0 < bs) : Option Block × FreeTable × AllocTable :=
  if hle : bs ≤ total then
    match hm : freeLookup mem bs with
    | block :: rest =>
      (some block, dictSet mem bs rest, dictSet alloc block.1 (sz, bs))
    | [] =>
      match hsp : splitScan total mem (bs * 2) (by omega) with
      | (true, mem') => allocLoop total bs sz mem' alloc hbs
      | (false, mem') => (none, mem', alloc)
  else (none, mem, alloc)
termination_by phi bs mem
decreasing_by exact splitScan_phi total bs hbs mem mem' (by omega) hsp

/-- `BuddySystem.allocate(size)`: returns the block (or `None`) and the
updated allocator state. -/
def allocate (sys : BuddySystem) (size : Int) : Option Block × BuddySystem :=
  match allocLoop sys.total_memory (find_nearest_power_of_two size) size sys.memory
      sys.allocated (find_nearest_pos size) with
  | (r, mem', alloc') => (r, { sys with memory := mem', allocated := alloc' })

/-- One coalescing step removes two blocks and inserts one, so the total
number of free blocks strictly decreases. -/
theorem merge_step_lt (mem : FreeTable) (size : Nat) (block buddy merged : Block)
    (k : Nat) (hblk : block ∈ freeLookup mem size) (hb : buddy ∈ freeLookup mem size)
    (hne : block ≠ buddy) :
    totalBlocks (memAppend (dictSet mem size
        (((freeLookup mem size).erase buddy).erase block)) k merged) < totalBlocks mem := by
  have hnil : freeLookup mem size ≠ [] := by
    intro h; rw [h] at hb; simp at hb
  have hget := freeLookup_ne_nil hnil
  have hblk' : block ∈ (freeLookup mem size).erase buddy :=
    (List.mem_erase_of_ne hne).mpr hblk
  have hlen1 : ((freeLookup mem size).erase buddy).length = (freeLookup mem size).length - 1 :=
    List.length_erase_of_mem hb
  have hpos1 : 0 < (freeLookup mem size).length := List.length_pos_of_mem hb
  have hlen2 : (((freeLookup mem size).erase buddy).erase block).length =
      ((freeLookup mem size).erase buddy).length - 1 :=
    List.length_erase_of_mem hblk'
  have hpos2 : 0 < ((freeLookup mem size).erase buddy).length := List.length_pos_of_mem hblk'
  have htb := totalBlocks_dictSet mem size (freeLookup mem size)
    (((freeLookup mem size).erase buddy).erase block) hget
  rw [totalBlocks_memAppend]
  omega

/-- `BuddySystem._merge_buddies(size, block)`: recursive coalescing.  The
membership hypothesis records that the block being merged is present in its
size class (Python's `list.remove` would raise otherwise; `deallocate`
always appends the block before merging). -/
def merge_buddies (mem : FreeTable) (size : Nat) (block : Block)
    (hblk : block ∈ freeLookup mem size) (hsz : 0 < size) : FreeTable :=
  if hb : (block.1 ^^^ size, (block.1 ^^^ size) + size) ∈ freeLookup mem size then
    merge_buddies
      (memAppend
        (dictSet mem size
          (((freeLookup mem size).erase (block.1 ^^^ size, (block.1 ^^^ size) + size)).erase block))
        (size * 2)
        (min block.1 (block.1 ^^^ size), max block.2 ((block.1 ^^^ size) + size)))
      (size * 2)
      (min block.1 (block.1 ^^^ size), max block.2 ((block.1 ^^^ size) + size))
      (mem_freeLookup_memAppend _ _ _) (by omega)
  else mem
termination_by totalBlocks mem
decreasing_by
  refine merge_step_lt mem size block _ _ _ hblk hb ?_
  intro he
  have h1 : block.1 = block.1 ^^^ size := congrArg Prod.fst he
  exact xor_ne_self hsz h1.symm

/-- `BuddySystem.deallocate(block)`: append the block to its size class,
drop it from the allocation table if present, then coalesce.  (For a
degenerate block of size 0 — unreachable through the GUI dispatch — Python
would raise inside `_merge_buddies`; the embedding skips the merge.) -/
def deallocate (sys : BuddySystem) (block : Block) : BuddySystem :=
  if hsz : 0 < block.2 - block.1 then
    { sys with
      memory := merge_buddies (memAppend sys.memory (block.2 - block.1) block)
        (block.2 - block.1) block (mem_freeLookup_memAppend _ _ _) hsz
      allocated := dictDel sys.allocated block.1 }
  else
    { sys with
      memory := memAppend sys.memory (block.2 - block.1) block
      allocated := dictDel sys.allocated block.1 }

/-- The address-based deallocation dispatch of
`BuddySystemGUI.deallocate_block`: look the address up in the allocation
table; on a hit rebuild the block from the stored block size and call
`deallocate`, otherwise report failure and leave the allocator untouched.
The boolean is the success/failure of the operation. -/
def deallocate_block (sys : BuddySystem) (address : Nat) : Bool × BuddySystem :=
  match dictGet? sys.allocated address with
  | some rb => (true, deallocate sys (address, address + rb.2))
  | none => (false, sys)

/-- The number of blocks in one size class is at most the total count. -/
theorem freeLookup_length_le (m : FreeTable) (k : Nat) :
    (freeLookup m k).length ≤ totalBlocks m := by
  induction m with
  | nil => simp [freeLookup, dictGet?, totalBlocks]
  | cons p rest ih =>
    obtain ⟨k', v'⟩ := p
    unfold freeLookup totalBlocks at *
    rw [dictGet?]
    simp only [List.map_cons, List.sum_cons]
    by_cases hk : k' = k
    · rw [if_pos hk]
      simp
    · rw [if_neg hk]
      omega

/-- Fuel-driven structural twin of `findPow`, for kernel evaluation. -/
def findPowF : Nat → Int → Nat → Nat
  | 0, _, power => power
  | fuel + 1, size, power => if (power : Int) < size then findPowF fuel size (power * 2) else power

/-- With enough fuel, the twin agrees with `findPow`. -/
theorem findPowF_eq : ∀ (fuel : Nat) (size : Int) (power : Nat) (h : 0 < power),
    size.toNat - power ≤ fuel → findPowF fuel size power = findPow size power h := by
  intro fuel
  induction fuel with
  | zero =>
    intro size power h hf
    rw [findPowF, findPow]
    rw [dif_neg (by omega)]
  | succ fuel ih =>
    intro size power h hf
    rw [findPowF, findPow]
    by_cases hc : (power : Int) < size
    · rw [if_pos hc, dif_pos hc]
      exact ih size (power * 2) (by omega) (by omega)
    · rw [if_neg hc, dif_neg hc]

/-- Fuel-driven structural twin of `splitScan`. -/
def splitScanF : Nat → Nat → FreeTable → Nat → Bool × FreeTable
  | 0, _, mem, _ => (false, mem)
  | fuel + 1, total, mem, larger =>
    if larger ≤ total then
      match freeLookup mem larger with
      | block :: rest =>
        (true,
          memAppend
            (memAppend (dictSet mem larger rest) (larger / 2) (block.1, (block.1 + block.2) / 2))
            (larger / 2) ((block.1 + block.2) / 2, block.2))
      | [] => splitScanF fuel total mem (larger * 2)
    else (false, mem)

/-- With enough fuel, the twin agrees with `splitScan`. -/
theorem splitScanF_eq : ∀ (fuel total : Nat) (mem : FreeTable) (larger : Nat) (h : 0 < larger),
    total + 1 - larger ≤ fuel → splitScanF fuel total mem larger = splitScan total mem larger h := by
  intro fuel
  induction fuel with
  | zero =>
    intro total mem larger h hf
    rw [splitScanF, splitScan]
    rw [dif_neg (by omega)]
  | succ fuel ih =>
    intro total mem larger h hf
    rw [splitScanF, splitScan]
    by_cases hle : larger ≤ total
    · rw [if_pos hle, dif_pos hle]
      cases hm : freeLookup mem larger with
      | nil => exact ih total mem (larger * 2) (by omega) (by omega)
      | cons blk rest => rfl
    · rw [if_neg hle, dif_neg hle]

/-- Fuel-driven structural twin of `allocLoop`. -/
def allocLoopF : Nat → Nat → Nat → Int → FreeTable → AllocTable →
    Option Block × FreeTable × AllocTable
  | 0, _, _, _, mem, alloc => (none, mem, alloc)
  | fuel + 1, total, bs, sz, mem, alloc =>
    if bs ≤ total then
      match freeLookup mem bs with
      | block :: rest =>
        (some block, dictSet mem bs rest, dictSet alloc block.1 (sz, bs))
      | [] =>
        match splitScanF (total + 1) total mem (bs * 2) with
        | (true, mem') => allocLoopF fuel total bs sz mem' alloc
        | (false, mem') => (none, mem', alloc)
    else (none, mem, alloc)

/-- With enough fuel, the twin agrees with `allocLoop`. -/
theorem allocLoopF_eq : ∀ (fuel total bs : Nat) (sz : Int) (mem : FreeTable)
    (alloc : AllocTable) (hbs : 0 < bs), phi bs mem < fuel →
    allocLoopF fuel total bs sz mem alloc = allocLoop total bs sz mem alloc hbs := by
  intro fuel
  induction fuel with
  | zero =>
    intro total bs sz mem alloc hbs hf
    omega
  | succ fuel ih =>
    intro total bs sz mem alloc hbs hf
    rw [allocLoopF, allocLoop]
    by_cases hle : bs ≤ total
    · rw [if_pos hle, dif_pos hle]
      cases hm : freeLookup mem bs with
      | cons blk rest => rfl
      | nil =>
        rw [splitScanF_eq (total + 1) total mem (bs * 2) (by omega) (by omega)]
        cases hsp : splitScan total mem (bs * 2) (by omega : 0 < bs * 2) with
        | mk ok mem' =>
          cases ok with
          | true =>
            have hlt := splitScan_phi total bs hbs mem mem' (by omega) hsp
            exact ih total bs sz mem' alloc hbs (by omega)
          | false => rfl
    · rw [if_neg hle, dif_neg hle]

/-- Executable version of `allocate` (kernel-evaluable). -/
def allocateF (sys : BuddySystem) (size : Int) : Option Block × BuddySystem :=
  match allocLoopF (phi (findPowF size.toNat size 1) sys.memory + 1) sys.total_memory
      (findPowF size.toNat size 1) size sys.memory sys.allocated with
  | (r, mem', alloc') => (r, { sys with memory := mem', allocated := alloc' })

/-- `allocateF` computes exactly `allocate`. -/
theorem allocateF_eq (sys : BuddySystem) (size : Int) : allocateF sys size = allocate sys size := by
  unfold allocateF allocate
  rw [show findPowF size.toNat size 1 = find_nearest_power_of_two size from
    findPowF_eq size.toNat size 1 (by decide) (by omega)]
  rw [allocLoopF_eq _ _ _ _ _ _ (find_nearest_pos size) (by omega)]

/-- Fuel-driven structural twin of `merge_buddies`. -/
def mergeF : Nat → FreeTable → Nat → Block → FreeTable
  | 0, mem, _, _ => mem
  | fuel + 1, mem, size, block =>
    if (block.1 ^^^ size, (block.1 ^^^ size) + size) ∈ freeLookup mem size then
      mergeF fuel
        (memAppend
          (dictSet mem size
            (((freeLookup mem size).erase (block.1 ^^^ size, (block.1 ^^^ size) + size)).erase block))
          (size * 2)
          (min block.1 (block.1 ^^^ size), max block.2 ((block.1 ^^^ size) + size)))
        (size * 2)
        (min block.1 (block.1 ^^^ size), max block.2 ((block.1 ^^^ size) + size))
    else mem

/-- With enough fuel, the twin agrees with `merge_buddies`. -/
theorem mergeF_eq : ∀ (fuel : Nat) (mem : FreeTable) (size : Nat) (block : Block)
    (hblk : block ∈ freeLookup mem size) (hsz : 0 < size), totalBlocks mem ≤ fuel →
    mergeF fuel mem size block = merge_buddies mem size block hblk hsz := by
  intro fuel
  induction fuel with
  | zero =>
    intro mem size block hblk hsz hf
    have h1 : 0 < (freeLookup mem size).length := List.length_pos_of_mem hblk
    have h2 := freeLookup_length_le mem size
    omega
  | succ fuel ih =>
    intro mem size block hblk hsz hf
    rw [mergeF, merge_buddies]
    by_cases hb : (block.1 ^^^ size, (block.1 ^^^ size) + size) ∈ freeLookup mem size
    · rw [if_pos hb, dif_pos hb]
      have hne : block ≠ (block.1 ^^^ size, (block.1 ^^^ size) + size) := by
        intro he
        have h1 : block.1 = block.1 ^^^ size := congrArg Prod.fst he
        exact xor_ne_self hsz h1.symm
      have hlt := merge_step_lt mem size block (block.1 ^^^ size, (block.1 ^^^ size) + size)
        (min block.1 (block.1 ^^^ size), max block.2 ((block.1 ^^^ size) + size))
        (size * 2) hblk hb hne
      exact ih _ _ _ _ _ (by omega)
    · rw [if_neg hb, dif_neg hb]

/-- Executable version of `deallocate` (kernel-evaluable). -/
def deallocateF (sys : BuddySystem) (block : Block) : BuddySystem :=
  if 0 < block.2 - block.1 then
    { sys with
      memory := mergeF (totalBlocks (memAppend sys.memory (block.2 - block.1) block))
        (memAppend sys.memory (block.2 - block.1) block) (block.2 - block.1) block
      allocated := dictDel sys.allocated block.1 }
  else
    { sys with
      memory := memAppend sys.memory (block.2 - block.1) block
      allocated := dictDel sys.allocated block.1 }

/-- `deallocateF` computes exactly `deallocate`. -/
theorem deallocateF_eq (sys : BuddySystem) (block : Block) :
    deallocateF sys block = deallocate sys block := by
  unfold deallocateF deallocate
  by_cases hsz : 0 < block.2 - block.1
  · rw [if_pos hsz, dif_pos hsz]
    rw [mergeF_eq _ _ _ _ (mem_freeLookup_memAppend _ _ _) hsz (by omega)]
  · rw [if_neg hsz, dif_neg hsz]

/-- Executable version of `deallocate_block`. -/
def deallocate_blockF (sys : BuddySystem) (address : Nat) : Bool × BuddySystem :=
  match dictGet? sys.allocated address with
  | some rb => (true, deallocateF sys (address, address + rb.2))
  | none => (false, sys)

/-- `deallocate_blockF` computes exactly `deallocate_block`. -/
theorem deallocate_blockF_eq (sys : BuddySystem) (address : Nat) :
    deallocate_blockF sys address = deallocate_block sys address := by
  unfold deallocate_blockF deallocate_block
  cases dictGet? sys.allocated address with
  | some rb => simp only [deallocateF_eq]
  | none => rfl

/-- The state after an `allocate` request (dropping the returned block). -/
def allocOp (sys : BuddySystem) (size : Int) : BuddySystem := (allocate sys size).2

/-- The state after an address-based deallocation request. -/
def deallocOp (sys : BuddySystem) (address : Nat) : BuddySystem := (deallocate_block sys address).2

/-- One allocator operation, as issued through the public surface. -/
inductive Step : BuddySystem → BuddySystem → Prop where
  | alloc (sys : BuddySystem) (size : Int) : Step sys (allocOp sys size)
  | dealloc (sys : BuddySystem) (address : Nat) : Step sys (deallocOp sys address)

/-- States reachable from a freshly constructed allocator by any sequence
of allocate / deallocate requests. -/
def Reachable (total : Nat) (sys : BuddySystem) : Prop :=
  Relation.ReflTransGen Step (init total) sys

/-- Convenient evaluation form of the size-class helper. -/
theorem find_nearestF_eq (n : Int) : find_nearest_power_of_two n = findPowF n.toNat n 1 :=
  (findPowF_eq n.toNat n 1 (by decide) (by omega)).symm

/-- Convenient evaluation form of `split_block`. -/
theorem split_blockF_eq (total : Nat) (mem : FreeTable) (size : Nat) (h : 0 < size) :
    split_block total mem size h = splitScanF (total + 1) total mem (size * 2) := by
  unfold split_block
  exact (splitScanF_eq (total + 1) total mem (size * 2) (by omega) (by omega)).symm

/-- Evaluation form of `allocOp`. -/
theorem allocOpF_eq (sys : BuddySystem) (n : Int) : allocOp sys n = (allocateF sys n).2 := by
  unfold allocOp
  rw [allocateF_eq]

/-- Evaluation form of `deallocOp`. -/
theorem deallocOpF_eq (sys : BuddySystem) (a : Nat) :
    deallocOp sys a = (deallocate_blockF sys a).2 := by
  unfold deallocOp
  rw [deallocate_blockF_eq]

/-- Full contract of the `findPow` loop: starting from a positive power of
two below `2 * size`, it returns a power of two in `[size, 2 * size)`. -/
theorem findPow_spec (size : Int) (power : Nat) (h : 0 < power) :
    (∃ k, power = 2 ^ k) → (power : Int) < 2 * size →
    (∃ k, findPow size power h = 2 ^ k) ∧ size ≤ (findPow size power h : Int) ∧
    (findPow size power h : Int) < 2 * size := by
  induction power, h using findPow.induct size with
  | case1 power h hc ih =>
    intro hpow hlt
    rw [findPow, dif_pos hc]
    refine ih ?_ ?_
    · obtain ⟨k, hk⟩ := hpow
      exact ⟨k + 1, by rw [hk]; ring⟩
    · push_cast
      omega
  | case2 power h hc =>
    intro hpow hlt
    rw [findPow, dif_neg hc]
    exact ⟨hpow, by omega, hlt⟩

/-- Claim C6: for every integer `n ≥ 1`, `nearestPowerOfTwo(n)` is a power
of two, at least `n`, and its half is strictly below `n` (it is the least
sufficient power of two). -/
theorem nearest_power_of_two_spec (n : Int) (hn : 1 ≤ n) :
    (∃ k, find_nearest_power_of_two n = 2 ^ k) ∧
    n ≤ (find_nearest_power_of_two n : Int) ∧
    ((find_nearest_power_of_two n / 2 : Nat) : Int) < n := by
  have hs := findPow_spec n 1 (by decide) ⟨0, rfl⟩ (by omega)
  unfold find_nearest_power_of_two
  refine ⟨hs.1, hs.2.1, ?_⟩
  have h2 := hs.2.2
  omega

/-- Claim C6 witness at `n = 5`. -/
theorem nearest_power_of_two_spec_witness :
    (1 : Int) ≤ 5 ∧
    ((∃ k, find_nearest_power_of_two 5 = 2 ^ k) ∧
      (5 : Int) ≤ (find_nearest_power_of_two 5 : Int) ∧
      ((find_nearest_power_of_two 5 / 2 : Nat) : Int) < 5) :=
  ⟨by decide, nearest_power_of_two_spec 5 (by decide)⟩

/-- Claim C3 counterexample: `allocate(0)` does not fail with an
`InvalidSize` error — on a fresh 16-unit allocator it silently rounds the
size up to 1 and grants the block `(0, 1)`. -/
theorem alloc_nonpositive_counterexample :
    (0 : Int) ≤ 0 ∧ (allocate (init 16) 0).1 = some (0, 1) := by
  refine ⟨by decide, ?_⟩
  rw [← allocateF_eq]
  decide

/-- Claim C3 (amended): for `n ≤ 0` the code performs no size validation:
`_find_nearest_power_of_two` returns 1, and `allocate` proceeds to grant a
size-1 block when one is obtainable (e.g. `(0, 1)` on a fresh 16-unit
allocator, with the non-positive requested size recorded verbatim in the
allocation table). -/
theorem alloc_nonpositive_amended (n : Int) (hn : n ≤ 0) :
    find_nearest_power_of_two n = 1 ∧
    (allocate (init 16) 0).1 = some (0, 1) ∧
    dictGet? (allocate (init 16) 0).2.allocated 0 = some (0, 1) := by
  refine ⟨?_, ?_, ?_⟩
  · unfold find_nearest_power_of_two
    rw [findPow, dif_neg (by omega)]
  · rw [← allocateF_eq]
    decide
  · rw [← allocateF_eq]
    decide

/-- Claim C3 (amended) witness at `n = -3`. -/
theorem alloc_nonpositive_amended_witness :
    (-3 : Int) ≤ 0 ∧
    (find_nearest_power_of_two (-3) = 1 ∧
      (allocate (init 16) 0).1 = some (0, 1) ∧
      dictGet? (allocate (init 16) 0).2.allocated 0 = some (0, 1)) :=
  ⟨by decide, alloc_nonpositive_amended (-3) (by decide)⟩

/-- Claim C4 counterexample: with total capacity 4, needed block size 1 and
the only free block at donor size 4, a single split step leaves the class
of size 1 empty — the halves land at size 2, not at the needed size. -/
theorem split_collapse_counterexample :
    (split_block 4 [(4, [(0, 4)])] 1 (by decide)).1 = true ∧
    freeLookup (split_block 4 [(4, [(0, 4)])] 1 (by decide)).2 1 = [] ∧
    freeLookup (split_block 4 [(4, [(0, 4)])] 1 (by decide)).2 2 = [(0, 2), (2, 4)] := by
  rw [split_blockF_eq]
  refine ⟨by decide, by decide, by decide⟩

/-- Claim C4 (amended): a single `_split_block(size)` step pops the donor
from the first non-empty scanned class `d = size * 2 * 2 ^ j` and appends
the two halves at class `d / 2` — not at `size` unless `d = 2 * size`; the
allocate loop then repeats the split once per level. -/
theorem split_block_amended (total : Nat) (mem : FreeTable) (size : Nat) (h : 0 < size)
    (mem' : FreeTable) (hs : split_block total mem size h = (true, mem')) :
    ∃ (j : Nat) (blk : Block) (rest : List Block),
      (∀ i, i < j → freeLookup mem (size * 2 * 2 ^ i) = []) ∧
      size * 2 * 2 ^ j ≤ total ∧
      freeLookup mem (size * 2 * 2 ^ j) = blk :: rest ∧
      mem' = memAppend
          (memAppend (dictSet mem (size * 2 * 2 ^ j) rest) (size * 2 * 2 ^ j / 2)
            (blk.1, (blk.1 + blk.2) / 2))
          (size * 2 * 2 ^ j / 2) ((blk.1 + blk.2) / 2, blk.2) := by
  unfold split_block at hs
  exact splitScan_true_spec total mem (size * 2) (by omega) mem' hs

/-- Claim C4 (amended) witness: the donor of size 4 is split into the two
halves `(0,2)`, `(2,4)` filed under class 2 (`= 4 / 2`). -/
theorem split_block_amended_witness :
    split_block 4 [(4, [(0, 4)])] 1 (by decide) = (true, [(4, []), (2, [(0, 2), (2, 4)])]) ∧
    (∃ (j : Nat) (blk : Block) (rest : List Block),
      (∀ i, i < j → freeLookup [(4, [(0, 4)])] (1 * 2 * 2 ^ i) = []) ∧
      1 * 2 * 2 ^ j ≤ 4 ∧
      freeLookup [(4, [(0, 4)])] (1 * 2 * 2 ^ j) = blk :: rest ∧
      [(4, []), (2, [(0, 2), (2, 4)])] = memAppend
          (memAppend (dictSet [(4, [(0, 4)])] (1 * 2 * 2 ^ j) rest) (1 * 2 * 2 ^ j / 2)
            (blk.1, (blk.1 + blk.2) / 2))
          (1 * 2 * 2 ^ j / 2) ((blk.1 + blk.2) / 2, blk.2)) := by
  have heq : split_block 4 [(4, [(0, 4)])] 1 (by decide) =
      (true, [(4, []), (2, [(0, 2), (2, 4)])]) := by
    rw [split_blockF_eq]
    decide
  exact ⟨heq, split_block_amended 4 [(4, [(0, 4)])] 1 (by decide) _ heq⟩

/-- Claim C2: deallocating an address that is not a key of the allocation
table (never allocated, or already deallocated) fails and leaves the whole
allocator state — both tables — unchanged. -/
theorem deallocate_unknown_address (sys : BuddySystem) (address : Nat)
    (h : dictGet? sys.allocated address = none) :
    deallocate_block sys address = (false, sys) := by
  unfold deallocate_block
  rw [h]

/-- Claim C2 witness: address 0 is allocated on a 2-unit allocator, then
deallocated; a second deallocation of the same address fails and leaves the
state unchanged. -/
theorem deallocate_unknown_address_witness :
    dictGet? (deallocOp (allocOp (init 2) 1) 0).allocated 0 = none ∧
    deallocate_block (deallocOp (allocOp (init 2) 1) 0) 0 =
      (false, deallocOp (allocOp (init 2) 1) 0) := by
  have h : dictGet? (deallocOp (allocOp (init 2) 1) 0).allocated 0 = none := by
    rw [deallocOpF_eq, allocOpF_eq]
    decide
  exact ⟨h, deallocate_unknown_address _ _ h⟩

/-- One-step equation: a free block of the needed size is popped. -/
theorem allocLoop_eq_pop {total bs : Nat} {sz : Int} {mem : FreeTable} {alloc : AllocTable}
    {hbs : 0 < bs} {blk : Block} {rest : List Block}
    (hle : bs ≤ total) (hm : freeLookup mem bs = blk :: rest) :
    allocLoop total bs sz mem alloc hbs =
      (some blk, dictSet mem bs rest, dictSet alloc blk.1 (sz, bs)) := by
  rw [allocLoop, dif_pos hle]
  split
  · rename_i blk2 rest2 heq
    rw [hm] at heq
    simp only [List.cons.injEq] at heq
    obtain ⟨h1, h2⟩ := heq
    rw [h1, h2]
  · rename_i heq
    rw [hm] at heq
    cases heq

/-- One-step equation: no block of the needed size, but a split succeeds. -/
theorem allocLoop_eq_split {total bs : Nat} {sz : Int} {mem mem' : FreeTable}
    {alloc : AllocTable} {hbs : 0 < bs} {h2 : 0 < bs * 2}
    (hle : bs ≤ total) (hm : freeLookup mem bs = [])
    (hsp : splitScan total mem (bs * 2) h2 = (true, mem')) :
    allocLoop total bs sz mem alloc hbs = allocLoop total bs sz mem' alloc hbs := by
  rw [allocLoop, dif_pos hle]
  split
  · rename_i blk2 rest2 heq
    rw [hm] at heq
    cases heq
  · split
    · rename_i mem2 heq2
      rw [hsp] at heq2
      simp only [Prod.mk.injEq] at heq2
      rw [heq2.2]
    · rename_i mem2 heq2
      rw [hsp] at heq2
      simp only [Prod.mk.injEq] at heq2
      cases heq2.1

/-- One-step equation: no block of the needed size and no split possible. -/
theorem allocLoop_eq_fail {total bs : Nat} {sz : Int} {mem mem' : FreeTable}
    {alloc : AllocTable} {hbs : 0 < bs} {h2 : 0 < bs * 2}
    (hle : bs ≤ total) (hm : freeLookup mem bs = [])
    (hsp : splitScan total mem (bs * 2) h2 = (false, mem')) :
    allocLoop total bs sz mem alloc hbs = (none, mem', alloc) := by
  rw [allocLoop, dif_pos hle]
  split
  · rename_i blk2 rest2 heq
    rw [hm] at heq
    cases heq
  · split
    · rename_i mem2 heq2
      rw [hsp] at heq2
      simp only [Prod.mk.injEq] at heq2
      cases heq2.1
    · rename_i mem2 heq2
      rw [hsp] at heq2
      simp only [Prod.mk.injEq] at heq2
      rw [heq2.2]

/-- One-step equation: the rounded size exceeds capacity. -/
theorem allocLoop_eq_oob {total bs : Nat} {sz : Int} {mem : FreeTable} {alloc : AllocTable}
    {hbs : 0 < bs} (hle : ¬bs ≤ total) :
    allocLoop total bs sz mem alloc hbs = (none, mem, alloc) := by
  rw [allocLoop, dif_neg hle]

/-- A successful split leaves a non-empty class on the scan grid: the half
class it filled. -/
theorem splitScan_true_newclass (total bs : Nat) (mem mem' : FreeTable)
    (h2 : 0 < bs * 2) (hsp : splitScan total mem (bs * 2) h2 = (true, mem')) :
    ∃ i, bs * 2 ^ i ≤ total ∧ freeLookup mem' (bs * 2 ^ i) ≠ [] := by
  obtain ⟨j, blk, rest, hemp, hjle, hlk, hmem'⟩ := splitScan_true_spec total mem (bs * 2) h2 mem' hsp
  have hc : bs * 2 * 2 ^ j = 2 * (bs * 2 ^ j) := by ring
  have hc2 : bs * 2 * 2 ^ j / 2 = bs * 2 ^ j := by
    rw [hc]
    exact Nat.mul_div_cancel_left _ (by norm_num)
  refine ⟨j, by omega, ?_⟩
  rw [hmem', hc2]
  rw [freeLookup_memAppend_self]
  simp

/-- If any size class on the scan grid `bs, 2*bs, 4*bs, …` (within
capacity) is non-empty, the allocate loop succeeds. -/
theorem allocLoop_progress (total bs : Nat) (sz : Int) :
    ∀ (mem : FreeTable) (alloc : AllocTable) (hbs : 0 < bs),
    bs ≤ total → (∃ i, bs * 2 ^ i ≤ total ∧ freeLookup mem (bs * 2 ^ i) ≠ []) →
    ((allocLoop total bs sz mem alloc hbs).1).isSome = true := by
  intro mem alloc hbs
  induction mem, alloc, hbs using allocLoop.induct total bs sz with
  | case1 mem alloc hbs hle blk rest hm =>
    intro _ _
    rw [allocLoop_eq_pop hle hm]
    rfl
  | case2 mem alloc hbs hle hm mem' hsp ih =>
    intro _ hex
    rw [allocLoop_eq_split hle hm hsp]
    exact ih hle (splitScan_true_newclass total bs mem mem' (by omega) hsp)
  | case3 mem alloc hbs hle hm mem' hsp =>
    intro _ hex
    exfalso
    obtain ⟨i, hile, hine⟩ := hex
    obtain ⟨hmm', hemp⟩ := splitScan_false_spec total mem (bs * 2) (by omega) mem' hsp
    cases i with
    | zero =>
      rw [pow_zero, Nat.mul_one] at hine
      exact hine hm
    | succ i' =>
      have harr : bs * 2 ^ (i' + 1) = bs * 2 * 2 ^ i' := by ring
      rw [harr] at hile hine
      exact hine (hemp i' hile)
  | case4 mem alloc hbs hle =>
    intro h _
    omega

/-- A failing allocate loop mutates nothing: the returned tables are the
ones it was given. -/
theorem allocLoop_none (total bs : Nat) (sz : Int) :
    ∀ (mem : FreeTable) (alloc : AllocTable) (hbs : 0 < bs) (mem' : FreeTable)
    (alloc' : AllocTable),
    allocLoop total bs sz mem alloc hbs = (none, mem', alloc') → mem' = mem ∧ alloc' = alloc := by
  intro mem alloc hbs
  induction mem, alloc, hbs using allocLoop.induct total bs sz with
  | case1 mem alloc hbs hle blk rest hm =>
    intro mem' alloc' heq
    rw [allocLoop_eq_pop hle hm] at heq
    cases heq
  | case2 mem alloc hbs hle hm mem' hsp ih =>
    intro mem'' alloc' heq
    rw [allocLoop_eq_split hle hm hsp] at heq
    have hprog := allocLoop_progress total bs sz mem' alloc hbs hle
      (splitScan_true_newclass total bs mem mem' (by omega) hsp)
    rw [heq] at hprog
    simp at hprog
  | case3 mem alloc hbs hle hm mem' hsp =>
    intro mem'' alloc' heq
    rw [allocLoop_eq_fail hle hm hsp] at heq
    obtain ⟨hmm', _⟩ := splitScan_false_spec total mem (bs * 2) (by omega) mem' hsp
    cases heq
    exact ⟨hmm', rfl⟩
  | case4 mem alloc hbs hle =>
    intro mem' alloc' heq
    rw [allocLoop_eq_oob hle] at heq
    cases heq
    exact ⟨rfl, rfl⟩

/-- Claim C9: a failing allocate performs no mutation whatsoever — if
`allocate` returns no block, the allocator state is exactly as before the
call (no partial splits survive). -/
theorem alloc_fail_no_mutation (sys : BuddySystem) (size : Int)
    (h : (allocate sys size).1 = none) : (allocate sys size).2 = sys := by
  unfold allocate at h ⊢
  cases heq : allocLoop sys.total_memory (find_nearest_power_of_two size) size sys.memory
      sys.allocated (find_nearest_pos size) with
  | mk r p =>
    obtain ⟨mem', alloc'⟩ := p
    rw [heq] at h
    have hr : r = none := h
    subst hr
    obtain ⟨hm, ha⟩ := allocLoop_none sys.total_memory (find_nearest_power_of_two size) size
      sys.memory sys.allocated (find_nearest_pos size) mem' alloc' heq
    subst hm
    subst ha
    rfl

/-- Claim C9 witness: the failing `allocate(20)` on a fresh 16-unit
allocator leaves the state untouched. -/
theorem alloc_fail_no_mutation_witness :
    (allocate (init 16) 20).1 = none ∧ (allocate (init 16) 20).2 = init 16 := by
  have h : (allocate (init 16) 20).1 = none := by
    rw [← allocateF_eq]
    decide
  exact ⟨h, alloc_fail_no_mutation (init 16) 20 h⟩

/-- Claim C10: allocation is deterministic with FIFO selection — on success
it removes and returns the block at index 0 of the free list at the
computed block size (the whole result state is a function of the input
state), and on a fresh 1024-unit allocator `allocate(512)` twice returns
`(0, 512)` then `(512, 1024)`. -/
theorem allocate_fifo (sys : BuddySystem) (n : Int) (blk : Block) (rest : List Block)
    (hle : find_nearest_power_of_two n ≤ sys.total_memory)
    (hm : freeLookup sys.memory (find_nearest_power_of_two n) = blk :: rest) :
    allocate sys n = (some blk,
      { sys with memory := dictSet sys.memory (find_nearest_power_of_two n) rest,
                 allocated := dictSet sys.allocated blk.1 (n, find_nearest_power_of_two n) }) ∧
    (allocate (init 1024) 512).1 = some (0, 512) ∧
    (allocate (allocOp (init 1024) 512) 512).1 = some (512, 1024) := by
  refine ⟨?_, ?_, ?_⟩
  · unfold allocate
    rw [allocLoop_eq_pop hle hm]
  · rw [← allocateF_eq]
    decide
  · rw [allocOpF_eq, ← allocateF_eq]
    decide

/-- Claim C10 witness: a fresh 1024-unit allocator grants the head block
`(0, 1024)` for a request of 1024. -/
theorem allocate_fifo_witness :
    find_nearest_power_of_two 1024 ≤ (init 1024).total_memory ∧
    freeLookup (init 1024).memory (find_nearest_power_of_two 1024) = (0, 1024) :: [] ∧
    (allocate (init 1024) 1024 = (some (0, 1024),
      { init 1024 with
          memory := dictSet (init 1024).memory (find_nearest_power_of_two 1024) [],
          allocated := dictSet (init 1024).allocated 0 (1024, find_nearest_power_of_two 1024) }) ∧
      (allocate (init 1024) 512).1 = some (0, 512) ∧
      (allocate (allocOp (init 1024) 512) 512).1 = some (512, 1024)) := by
  have hfn : find_nearest_power_of_two 1024 = 1024 := by
    rw [find_nearestF_eq]
    decide
  have h1 : find_nearest_power_of_two 1024 ≤ (init 1024).total_memory := by
    rw [hfn]
    decide
  have h2 : freeLookup (init 1024).memory (find_nearest_power_of_two 1024) = (0, 1024) :: [] := by
    rw [hfn]
    decide
  exact ⟨h1, h2, allocate_fifo (init 1024) 1024 (0, 1024) [] h1 h2⟩

/-- Adequacy of the fuelled power-of-two test. -/
theorem isPow2Aux_iff : ∀ (fuel n : Nat), n ≤ fuel →
    (isPow2Aux fuel n = true ↔ ∃ k, n = 2 ^ k) := by
  intro fuel
  induction fuel with
  | zero =>
    intro n hn
    have hz : n = 0 := by omega
    subst hz
    rw [isPow2Aux]
    constructor
    · intro h; cases h
    · rintro ⟨k, hk⟩
      have := Nat.two_pow_pos k
      omega
  | succ fuel ih =>
    intro n hn
    match n with
    | 0 =>
      rw [isPow2Aux]
      constructor
      · intro h; cases h
      · rintro ⟨k, hk⟩
        have := Nat.two_pow_pos k
        omega
    | 1 =>
      rw [isPow2Aux]
      constructor
      · intro _; exact ⟨0, rfl⟩
      · intro _; rfl
    | (n + 2) =>
      rw [isPow2Aux]
      rw [Bool.and_eq_true, beq_iff_eq]
      rw [ih ((n + 2) / 2) (by omega)]
      constructor
      · rintro ⟨hev, k, hk⟩
        refine ⟨k + 1, ?_⟩
        have h2 : (2 : Nat) ^ (k + 1) = 2 * 2 ^ k := by
          rw [pow_succ]; ring
        omega
      · rintro ⟨k, hk⟩
        match k with
        | 0 => omega
        | k + 1 =>
          have h2 : (2 : Nat) ^ (k + 1) = 2 * 2 ^ k := by
            rw [pow_succ]; ring
          exact ⟨by omega, k, by omega⟩

/-- `isPow2` decides exactly the powers of two. -/
theorem isPow2_iff (n : Nat) : isPow2 n = true ↔ ∃ k, n = 2 ^ k :=
  isPow2Aux_iff n n le_rfl

/-- Whether a block contains the unit cell at address `x`. -/
def containsB (x : Nat) (b : Block) : Bool := decide (b.1 ≤ x ∧ x < b.2)

theorem countP_freeBlocks_dictSet (pr : Block → Bool) {m : FreeTable} {k : Nat}
    {l : List Block} (v : List Block) (h : dictGet? m k = some l) :
    (freeBlocks (dictSet m k v)).countP pr + l.countP pr =
      (freeBlocks m).countP pr + v.countP pr := by
  induction m with
  | nil => simp [dictGet?] at h
  | cons p rest ih =>
    obtain ⟨k', v'⟩ := p
    rw [dictGet?] at h
    rw [dictSet]
    by_cases hk : k' = k
    · rw [if_pos hk] at *
      cases h
      subst hk
      simp only [freeBlocks, List.map_cons, List.flatten_cons, List.countP_append]
      omega
    · rw [if_neg hk] at *
      have hih := ih h
      unfold freeBlocks at hih ⊢
      simp only [List.map_cons, List.flatten_cons, List.countP_append]
      omega

theorem countP_freeBlocks_dictSet_none (pr : Block → Bool) {m : FreeTable} {k : Nat}
    (v : List Block) (h : dictGet? m k = none) :
    (freeBlocks (dictSet m k v)).countP pr = (freeBlocks m).countP pr + v.countP pr := by
  induction m with
  | nil => simp [dictSet, freeBlocks]
  | cons p rest ih =>
    obtain ⟨k', v'⟩ := p
    rw [dictGet?] at h
    rw [dictSet]
    by_cases hk : k' = k
    · rw [if_pos hk] at h; cases h
    · rw [if_neg hk] at h
      rw [if_neg hk]
      have hih := ih h
      unfold freeBlocks at hih ⊢
      simp only [List.map_cons, List.flatten_cons, List.countP_append]
      omega

theorem countP_freeBlocks_memAppend (pr : Block → Bool) (m : FreeTable) (k : Nat) (b : Block) :
    (freeBlocks (memAppend m k b)).countP pr =
      (freeBlocks m).countP pr + (if pr b then 1 else 0) := by
  unfold memAppend freeLookup
  cases hg : dictGet? m k with
  | none =>
    rw [countP_freeBlocks_dictSet_none pr _ hg]
    simp [List.countP_cons]
  | some l =>
    have h1 := countP_freeBlocks_dictSet pr ((some l).getD [] ++ [b]) hg
    simp only [Option.getD_some, List.countP_append] at h1 ⊢
    have h2 : List.countP pr [b] = if pr b then 1 else 0 := by
      simp [List.countP_cons]
    omega

theorem allocBlocks_dictSet_none {a : AllocTable} {k : Nat} (v : Int × Nat)
    (h : dictGet? a k = none) :
    allocBlocks (dictSet a k v) = allocBlocks a ++ [(k, k + v.2)] := by
  induction a with
  | nil => simp [dictSet, allocBlocks]
  | cons p rest ih =>
    obtain ⟨k', v'⟩ := p
    rw [dictGet?] at h
    rw [dictSet]
    by_cases hk : k' = k
    · rw [if_pos hk] at h; cases h
    · rw [if_neg hk] at h
      rw [if_neg hk]
      unfold allocBlocks at ih ⊢
      simp only [List.map_cons, List.cons_append, List.cons.injEq]
      exact ⟨trivial, ih h⟩

theorem countP_allocBlocks_dictDel (pr : Block → Bool) {a : AllocTable} {k : Nat}
    {v : Int × Nat} (h : dictGet? a k = some v) :
    (allocBlocks a).countP pr =
      (allocBlocks (dictDel a k)).countP pr + (if pr (k, k + v.2) then 1 else 0) := by
  induction a with
  | nil => simp [dictGet?] at h
  | cons p rest ih =>
    obtain ⟨k', v'⟩ := p
    rw [dictGet?] at h
    rw [dictDel]
    by_cases hk : k' = k
    · rw [if_pos hk] at *
      cases h
      subst hk
      simp [allocBlocks, List.countP_cons]
    · rw [if_neg hk] at *
      have hih := ih h
      unfold allocBlocks at hih ⊢
      simp only [List.map_cons, List.countP_cons]
      omega

theorem countP_erase (pr : Block → Bool) :
    ∀ (l : List Block) (b : Block), b ∈ l →
    l.countP pr = ((l.erase b).countP pr) + (if pr b then 1 else 0) := by
  intro l
  induction l with
  | nil => intro b hb; simp at hb
  | cons x xs ih =>
    intro b hb
    rw [List.erase_cons]
    by_cases hx : x = b
    · subst hx
      rw [if_pos (by simp)]
      simp [List.countP_cons]
    · rw [if_neg (by simp [hx])]
      have hbxs : b ∈ xs := by
        cases hb with
        | head => exact absurd rfl hx
        | tail _ h => exact h
      rw [List.countP_cons, List.countP_cons, ih b hbxs]
      omega

/-- Well-formedness of the free table: every recorded block has the length
of its size class, the size is a positive power of two dividing the start
address, and the block lies inside the capacity. -/
def WfMem (total : Nat) (m : FreeTable) : Prop :=
  ∀ p ∈ m, ∀ b ∈ p.2,
    b.2 = b.1 + p.1 ∧ 0 < p.1 ∧ isPow2 p.1 = true ∧ p.1 ∣ b.1 ∧ b.2 ≤ total

/-- Well-formedness of the allocation table: every entry's block size is a
positive power of two dividing its address, and the block fits. -/
def WfAlloc (total : Nat) (a : AllocTable) : Prop :=
  ∀ q ∈ a, 0 < q.2.2 ∧ isPow2 q.2.2 = true ∧ q.2.2 ∣ q.1 ∧ q.1 + q.2.2 ≤ total

/-- How many blocks (free or allocated) contain address `x`. -/
def blocksAt (sys : BuddySystem) (x : Nat) : Nat :=
  (freeBlocks sys.memory ++ allocBlocks sys.allocated).countP (containsB x)

/-- No free block coexists with its own buddy in the same size class. -/
def NoPairs (m : FreeTable) : Prop :=
  ∀ p ∈ m, ∀ b ∈ p.2, (b.1 ^^^ p.1, (b.1 ^^^ p.1) + p.1) ∉ freeLookup m p.1

/-- The allocator's global invariant: power-of-two capacity, duplicate-free
dict keys, well-formed tables, the exact-partition property (every address
below capacity is covered by exactly one block), and fully-coalesced free
lists. -/
def AllocInv (sys : BuddySystem) : Prop :=
  isPow2 sys.total_memory = true ∧
  (sys.memory.map Prod.fst).Nodup ∧
  (sys.allocated.map Prod.fst).Nodup ∧
  WfMem sys.total_memory sys.memory ∧
  WfAlloc sys.total_memory sys.allocated ∧
  (∀ x, x < sys.total_memory → blocksAt sys x = 1) ∧
  NoPairs sys.memory

theorem keys_dictSet_subset {α : Type} (m : List (Nat × α)) (k : Nat) (v : α) :
    ∀ x ∈ (dictSet m k v).map Prod.fst, x = k ∨ x ∈ m.map Prod.fst := by
  induction m with
  | nil =>
    intro x hx
    simp [dictSet] at hx
    exact Or.inl hx
  | cons p rest ih =>
    obtain ⟨k', v'⟩ := p
    intro x hx
    rw [dictSet] at hx
    by_cases hk : k' = k
    · rw [if_pos hk] at hx
      simp only [List.map_cons, List.mem_cons] at hx ⊢
      rcases hx with h1 | h1
      · exact Or.inl h1
      · exact Or.inr (Or.inr h1)
    · rw [if_neg hk] at hx
      simp only [List.map_cons, List.mem_cons] at hx ⊢
      rcases hx with h1 | h1
      · exact Or.inr (Or.inl h1)
      · rcases ih x h1 with h2 | h2
        · exact Or.inl h2
        · exact Or.inr (Or.inr h2)

theorem keys_dictDel_subset {α : Type} (m : List (Nat × α)) (k : Nat) :
    ∀ x ∈ (dictDel m k).map Prod.fst, x ∈ m.map Prod.fst := by
  induction m with
  | nil =>
    intro x hx
    simp [dictDel] at hx
  | cons p rest ih =>
    obtain ⟨k', v'⟩ := p
    intro x hx
    rw [dictDel] at hx
    by_cases hk : k' = k
    · rw [if_pos hk] at hx
      simp only [List.map_cons, List.mem_cons]
      exact Or.inr hx
    · rw [if_neg hk] at hx
      simp only [List.map_cons, List.mem_cons] at hx ⊢
      rcases hx with h1 | h1
      · exact Or.inl h1
      · exact Or.inr (ih x h1)

theorem keys_nodup_dictSet {α : Type} {m : List (Nat × α)} (k : Nat) (v : α)
    (h : (m.map Prod.fst).Nodup) : ((dictSet m k v).map Prod.fst).Nodup := by
  induction m with
  | nil => simp [dictSet]
  | cons p rest ih =>
    obtain ⟨k', v'⟩ := p
    rw [dictSet]
    simp only [List.map_cons, List.nodup_cons] at h
    by_cases hk : k' = k
    · subst hk
      rw [if_pos rfl]
      simp only [List.map_cons, List.nodup_cons]
      exact h
    · rw [if_neg hk]
      simp only [List.map_cons, List.nodup_cons]
      refine ⟨?_, ih h.2⟩
      intro hmem
      rcases keys_dictSet_subset rest k v k' hmem with h1 | h1
      · exact hk h1
      · exact h.1 h1

theorem keys_nodup_dictDel {α : Type} {m : List (Nat × α)} (k : Nat)
    (h : (m.map Prod.fst).Nodup) : ((dictDel m k).map Prod.fst).Nodup := by
  induction m with
  | nil => simp [dictDel]
  | cons p rest ih =>
    obtain ⟨k', v'⟩ := p
    rw [dictDel]
    simp only [List.map_cons, List.nodup_cons] at h
    by_cases hk : k' = k
    · rw [if_pos hk]
      exact h.2
    · rw [if_neg hk]
      simp only [List.map_cons, List.nodup_cons]
      exact ⟨fun hmem => h.1 (keys_dictDel_subset rest k k' hmem), ih h.2⟩

/-- With duplicate-free keys, each entry is what lookup finds. -/
theorem mem_entry_lookup {α : Type} {m : List (Nat × α)} {p : Nat × α}
    (hnd : (m.map Prod.fst).Nodup) (hp : p ∈ m) : dictGet? m p.1 = some p.2 := by
  induction m with
  | nil => simp at hp
  | cons q rest ih =>
    obtain ⟨kq, vq⟩ := q
    simp only [List.map_cons, List.nodup_cons] at hnd
    rw [dictGet?]
    rcases List.mem_cons.mp hp with h1 | h1
    · subst h1
      rw [if_pos rfl]
    · by_cases hk : kq = p.1
      · exfalso
        apply hnd.1
        rw [hk]
        exact List.mem_map_of_mem Prod.fst h1
      · rw [if_neg hk]
        exact ih hnd.2 h1

theorem dictGet?_dictDel_self {α : Type} {m : List (Nat × α)} (k : Nat)
    (hnd : (m.map Prod.fst).Nodup) : dictGet? (dictDel m k) k = none := by
  induction m with
  | nil => simp [dictDel, dictGet?]
  | cons p rest ih =>
    obtain ⟨k', v'⟩ := p
    simp only [List.map_cons, List.nodup_cons] at hnd
    rw [dictDel]
    by_cases hk : k' = k
    · rw [if_pos hk]
      subst hk
      cases hg : dictGet? rest k' with
      | none => rfl
      | some v2 =>
        exfalso
        apply hnd.1
        exact List.mem_map_of_mem Prod.fst (dictGet?_mem hg)
    · rw [if_neg hk, dictGet?, if_neg hk]
      exact ih hnd.2

theorem dictGet?_dictDel_ne {α : Type} {m : List (Nat × α)} (k k' : Nat) (h : k' ≠ k) :
    dictGet? (dictDel m k) k' = dictGet? m k' := by
  induction m with
  | nil => simp [dictDel]
  | cons p rest ih =>
    obtain ⟨k₀, v₀⟩ := p
    rw [dictDel]
    by_cases hk : k₀ = k
    · subst hk
      rw [if_pos rfl, dictGet?, if_neg (by omega)]
    · rw [if_neg hk, dictGet?, dictGet?]
      by_cases hk' : k₀ = k'
      · rw [if_pos hk', if_pos hk']
      · rw [if_neg hk', if_neg hk', ih]

/-- Lookup-level form of free-table well-formedness. -/
theorem wfMem_lookup {total : Nat} {m : FreeTable} (hwf : WfMem total m) {s : Nat} {b : Block}
    (hb : b ∈ freeLookup m s) :
    b.2 = b.1 + s ∧ 0 < s ∧ isPow2 s = true ∧ s ∣ b.1 ∧ b.2 ≤ total := by
  have hne : freeLookup m s ≠ [] := by
    intro h; rw [h] at hb; simp at hb
  have hget := freeLookup_ne_nil hne
  exact hwf (s, freeLookup m s) (dictGet?_mem hget) b hb

/-- Lookup-level form of the no-buddy-pairs property. -/
theorem noPairs_lookup {m : FreeTable} (hnp : NoPairs m) {s : Nat} {b : Block}
    (hb : b ∈ freeLookup m s) : (b.1 ^^^ s, (b.1 ^^^ s) + s) ∉ freeLookup m s := by
  have hne : freeLookup m s ≠ [] := by
    intro h; rw [h] at hb; simp at hb
  have hget := freeLookup_ne_nil hne
  exact hnp (s, freeLookup m s) (dictGet?_mem hget) b hb

/-- Rebuilding the entry-level no-pairs property from the lookup level. -/
theorem noPairs_of_lookup {m : FreeTable} (hnd : (m.map Prod.fst).Nodup)
    (h : ∀ s : Nat, ∀ b ∈ freeLookup m s, (b.1 ^^^ s, (b.1 ^^^ s) + s) ∉ freeLookup m s) :
    NoPairs m := by
  intro p hp b hb
  have hlk := mem_entry_lookup hnd hp
  have hb' : b ∈ freeLookup m p.1 := by
    unfold freeLookup
    rw [hlk]
    exact hb
  exact h p.1 b hb'

/-- Entry-level well-formedness from the lookup level (needs duplicate-free
keys so that every entry is visible to lookup). -/
theorem wfMem_of_lookup {total : Nat} {m : FreeTable} (hnd : (m.map Prod.fst).Nodup)
    (h : ∀ s : Nat, ∀ b ∈ freeLookup m s,
      b.2 = b.1 + s ∧ 0 < s ∧ isPow2 s = true ∧ s ∣ b.1 ∧ b.2 ≤ total) :
    WfMem total m := by
  intro p hp b hb
  have hlk := mem_entry_lookup hnd hp
  have hb' : b ∈ freeLookup m p.1 := by
    unfold freeLookup
    rw [hlk]
    exact hb
  exact h p.1 b hb'

theorem freeLookup_dictSet_self (m : FreeTable) (k : Nat) (v : List Block) :
    freeLookup (dictSet m k v) k = v := by
  unfold freeLookup
  rw [dictGet?_dictSet_self]
  rfl

theorem freeLookup_dictSet_ne (m : FreeTable) (k k' : Nat) (v : List Block) (h : k' ≠ k) :
    freeLookup (dictSet m k v) k' = freeLookup m k' := by
  unfold freeLookup
  rw [dictGet?_dictSet_ne _ _ _ _ h]

/-- On a block aligned to `2 ^ (k+1)`, XOR with `2 ^ k` sets the bit: the
buddy of the lower half is the upper half. -/
theorem xor_two_pow_of_dvd {k a : Nat} (h : 2 ^ (k + 1) ∣ a) :
    a ^^^ 2 ^ k = a + 2 ^ k := by
  obtain ⟨t, ht⟩ := h
  subst ht
  apply Nat.eq_of_testBit_eq
  intro i
  rw [Nat.testBit_xor]
  have hlt : (2 : Nat) ^ k < 2 ^ (k + 1) := by
    have : (2 : Nat) ^ (k + 1) = 2 ^ k * 2 := by rw [pow_succ]
    have := Nat.two_pow_pos k
    omega
  rw [Nat.testBit_mul_pow_two_add t hlt i]
  rw [Nat.testBit_mul_pow_two]
  rw [Nat.testBit_two_pow]
  by_cases hik : i < k + 1
  · rw [if_pos hik]
    have h1 : ¬(i ≥ k + 1) := by omega
    simp [h1]
  · rw [if_neg hik]
    have h1 : i ≥ k + 1 := by omega
    have h2 : ¬(k = i) := by omega
    simp [h1, h2]

/-- Inverse direction: the buddy of the upper half is the lower half. -/
theorem add_pow_xor {k a : Nat} (h : 2 ^ (k + 1) ∣ a) : (a + 2 ^ k) ^^^ 2 ^ k = a := by
  rw [← xor_two_pow_of_dvd h, Nat.xor_assoc, Nat.xor_self, Nat.xor_zero]

/-- For a size-aligned address, XOR with the size moves one block up or one
block down, depending on the parity of the index. -/
theorem xor_buddy_cases {k a : Nat} (h : 2 ^ k ∣ a) :
    (2 ^ (k + 1) ∣ a ∧ a ^^^ 2 ^ k = a + 2 ^ k) ∨
    (2 ^ (k + 1) ∣ (a - 2 ^ k) ∧ 2 ^ k ≤ a ∧ a ^^^ 2 ^ k = a - 2 ^ k) := by
  obtain ⟨t, ht⟩ := h
  have hp : (2 : Nat) ^ (k + 1) = 2 ^ k * 2 := by rw [pow_succ]
  rcases Nat.even_or_odd t with he | ho
  · obtain ⟨u, hu⟩ := he
    left
    have hdvd : 2 ^ (k + 1) ∣ a := ⟨u, by rw [ht, hu, hp]; ring⟩
    exact ⟨hdvd, xor_two_pow_of_dvd hdvd⟩
  · obtain ⟨u, hu⟩ := ho
    right
    have ha : a = 2 ^ (k + 1) * u + 2 ^ k := by rw [ht, hu, hp]; ring
    have hdvd : 2 ^ (k + 1) ∣ (a - 2 ^ k) := ⟨u, by omega⟩
    have hle : 2 ^ k ≤ a := by omega
    refine ⟨hdvd, hle, ?_⟩
    have hx : (2 ^ (k + 1) * u + 2 ^ k) ^^^ 2 ^ k = 2 ^ (k + 1) * u := add_pow_xor ⟨u, rfl⟩
    rw [ha, hx]
    omega

theorem dictSet_mem_subset {α : Type} {m : List (Nat × α)} {k : Nat} {v : α} :
    ∀ p ∈ dictSet m k v, p ∈ m ∨ p = (k, v) := by
  induction m with
  | nil =>
    intro p hp
    simp [dictSet] at hp
    exact Or.inr hp
  | cons q rest ih =>
    obtain ⟨kq, vq⟩ := q
    intro p hp
    rw [dictSet] at hp
    by_cases hk : kq = k
    · rw [if_pos hk] at hp
      rcases List.mem_cons.mp hp with h1 | h1
      · exact Or.inr h1
      · exact Or.inl (List.mem_cons_of_mem _ h1)
    · rw [if_neg hk] at hp
      rcases List.mem_cons.mp hp with h1 | h1
      · exact Or.inl (h1 ▸ List.mem_cons_self _ _)
      · rcases ih p h1 with h2 | h2
        · exact Or.inl (List.mem_cons_of_mem _ h2)
        · exact Or.inr h2

theorem wfMem_dictSet {total : Nat} {m : FreeTable} {k : Nat} {v : List Block}
    (hwf : WfMem total m)
    (hv : ∀ b ∈ v, b.2 = b.1 + k ∧ 0 < k ∧ isPow2 k = true ∧ k ∣ b.1 ∧ b.2 ≤ total) :
    WfMem total (dictSet m k v) := by
  intro p hp b hb
  rcases dictSet_mem_subset p hp with h1 | h1
  · exact hwf p h1 b hb
  · subst h1
    exact hv b hb

theorem wfMem_memAppend {total : Nat} {m : FreeTable} {k : Nat} {b : Block}
    (hwf : WfMem total m)
    (hb : b.2 = b.1 + k ∧ 0 < k ∧ isPow2 k = true ∧ k ∣ b.1 ∧ b.2 ≤ total) :
    WfMem total (memAppend m k b) := by
  unfold memAppend
  apply wfMem_dictSet hwf
  intro b' hb'
  rcases List.mem_append.mp hb' with h1 | h1
  · exact wfMem_lookup hwf h1
  · rw [List.mem_singleton.mp h1]
    exact hb

theorem wfAlloc_dictSet {total : Nat} {a : AllocTable} {k : Nat} {v : Int × Nat}
    (hwf : WfAlloc total a)
    (hv : 0 < v.2 ∧ isPow2 v.2 = true ∧ v.2 ∣ k ∧ k + v.2 ≤ total) :
    WfAlloc total (dictSet a k v) := by
  intro q hq
  rcases dictSet_mem_subset q hq with h1 | h1
  · exact hwf q h1
  · subst h1
    exact hv

theorem isPow2_half {c : Nat} (h : isPow2 c = true) (he : 2 ∣ c) : isPow2 (c / 2) = true := by
  rw [isPow2_iff] at h ⊢
  obtain ⟨k, hk⟩ := h
  match k with
  | 0 =>
    subst hk
    omega
  | k + 1 =>
    refine ⟨k, ?_⟩
    have : (2 : Nat) ^ (k + 1) = 2 ^ k * 2 := by rw [pow_succ]
    omega

theorem freeBlocks_of_lookup {m : FreeTable} {s : Nat} {b : Block}
    (hb : b ∈ freeLookup m s) : b ∈ freeBlocks m := by
  have hne : freeLookup m s ≠ [] := by
    intro h; rw [h] at hb; simp at hb
  have hget := freeLookup_ne_nil hne
  have hmem := dictGet?_mem hget
  unfold freeBlocks
  rw [List.mem_flatten]
  exact ⟨freeLookup m s, List.mem_map_of_mem _ hmem, hb⟩

/-- The no-pairs property transfers down pointwise sub-lookups. -/
theorem npl_sublookup {m₁ m₂ : FreeTable}
    (hsub : ∀ s : Nat, ∀ b : Block, b ∈ freeLookup m₂ s → b ∈ freeLookup m₁ s)
    (hnp : ∀ s : Nat, ∀ b ∈ freeLookup m₁ s, (b.1 ^^^ s, (b.1 ^^^ s) + s) ∉ freeLookup m₁ s) :
    ∀ s : Nat, ∀ b ∈ freeLookup m₂ s, (b.1 ^^^ s, (b.1 ^^^ s) + s) ∉ freeLookup m₂ s := by
  intro s b hb hbd
  exact hnp s b (hsub s b hb) (hsub s _ hbd)

theorem class_strict_mono {bs : Nat} (hbs : 0 < bs) {i j : Nat} (h : i < j) :
    bs * 2 ^ i < bs * 2 ^ j := by
  exact (Nat.mul_lt_mul_left hbs).mpr (Nat.pow_lt_pow_right (by norm_num) h)

/-- The table produced by one split step of `_split_block`. -/
def splitResult (mem : FreeTable) (c : Nat) (blk : Block) (rest : List Block) : FreeTable :=
  memAppend
    (memAppend (dictSet mem c rest) (c / 2) (blk.1, (blk.1 + blk.2) / 2))
    (c / 2) ((blk.1 + blk.2) / 2, blk.2)

/-- `splitScan_true_spec` restated through `splitResult`. -/
theorem splitScan_true_spec' (total : Nat) (mem : FreeTable) (larger : Nat) (h : 0 < larger)
    (mem' : FreeTable) (hs : splitScan total mem larger h = (true, mem')) :
    ∃ (j : Nat) (blk : Block) (rest : List Block),
      (∀ i, i < j → freeLookup mem (larger * 2 ^ i) = []) ∧
      larger * 2 ^ j ≤ total ∧
      freeLookup mem (larger * 2 ^ j) = blk :: rest ∧
      mem' = splitResult mem (larger * 2 ^ j) blk rest := by
  obtain ⟨j, blk, rest, h1, h2, h3, h4⟩ := splitScan_true_spec total mem larger h mem' hs
  exact ⟨j, blk, rest, h1, h2, h3, h4⟩

theorem splitResult_lookup_c {mem : FreeTable} {c : Nat} {blk : Block} {rest : List Block}
    (hc : 2 ≤ c) : freeLookup (splitResult mem c blk rest) c = rest := by
  unfold splitResult
  have hne : c ≠ c / 2 := by omega
  rw [freeLookup_memAppend_ne _ _ _ _ hne, freeLookup_memAppend_ne _ _ _ _ hne,
    freeLookup_dictSet_self]

theorem splitResult_lookup_half {mem : FreeTable} {c : Nat} {blk : Block} {rest : List Block}
    (hc : 2 ≤ c) :
    freeLookup (splitResult mem c blk rest) (c / 2) =
      freeLookup mem (c / 2) ++ [(blk.1, (blk.1 + blk.2) / 2), ((blk.1 + blk.2) / 2, blk.2)] := by
  unfold splitResult
  have hne : c / 2 ≠ c := by omega
  rw [freeLookup_memAppend_self, freeLookup_memAppend_self,
    freeLookup_dictSet_ne _ _ _ _ hne]
  rw [List.append_assoc]
  rfl

theorem splitResult_lookup_other {mem : FreeTable} {c : Nat} {blk : Block} {rest : List Block}
    {s : Nat} (hs1 : s ≠ c) (hs2 : s ≠ c / 2) :
    freeLookup (splitResult mem c blk rest) s = freeLookup mem s := by
  unfold splitResult
  rw [freeLookup_memAppend_ne _ _ _ _ hs2, freeLookup_memAppend_ne _ _ _ _ hs2,
    freeLookup_dictSet_ne _ _ _ _ hs1]

theorem splitResult_nodup {mem : FreeTable} {c : Nat} {blk : Block} {rest : List Block}
    (hnd : (mem.map Prod.fst).Nodup) :
    ((splitResult mem c blk rest).map Prod.fst).Nodup := by
  unfold splitResult memAppend
  exact keys_nodup_dictSet _ _ (keys_nodup_dictSet _ _ (keys_nodup_dictSet _ _ hnd))

/-- Facts about the donor block extracted from table well-formedness. -/
theorem splitResult_facts {total : Nat} {mem : FreeTable} {c : Nat} {blk : Block}
    {rest : List Block} (hc2 : 2 ∣ c) (hlk : freeLookup mem c = blk :: rest)
    (hwf : WfMem total mem) :
    blk.2 = blk.1 + c ∧ 0 < c ∧ isPow2 c = true ∧ c ∣ blk.1 ∧ blk.2 ≤ total ∧
    (blk.1 + blk.2) / 2 = blk.1 + c / 2 ∧ c / 2 * 2 = c := by
  have hbmem : blk ∈ freeLookup mem c := by
    rw [hlk]
    exact List.mem_cons_self _ _
  obtain ⟨h1, h2, h3, h4, h5⟩ := wfMem_lookup hwf hbmem
  have h7 : c / 2 * 2 = c := Nat.div_mul_cancel hc2
  exact ⟨h1, h2, h3, h4, h5, by omega, h7⟩

/-- A split step preserves free-table well-formedness: the two halves are
aligned power-of-two blocks at half the donor's size. -/
theorem splitResult_wf {total : Nat} {mem : FreeTable} {c : Nat} {blk : Block}
    {rest : List Block} (hc2 : 2 ∣ c) (hlk : freeLookup mem c = blk :: rest)
    (hwf : WfMem total mem) : WfMem total (splitResult mem c blk rest) := by
  obtain ⟨h1, h2, h3, h4, h5, hmid, h7⟩ := splitResult_facts hc2 hlk hwf
  have hpowe : isPow2 (c / 2) = true := isPow2_half h3 hc2
  have hedvd : c / 2 ∣ c := ⟨2, h7.symm⟩
  refine wfMem_memAppend (wfMem_memAppend (wfMem_dictSet hwf ?_) ?_) ?_
  · intro b hb
    refine wfMem_lookup hwf ?_
    rw [hlk]
    exact List.mem_cons_of_mem _ hb
  · refine ⟨?_, by omega, hpowe, ?_, ?_⟩
    · simpa using hmid
    · exact dvd_trans hedvd h4
    · simp only
      omega
  · refine ⟨?_, by omega, hpowe, ?_, ?_⟩
    · simp only
      omega
    · simp only
      rw [hmid]
      exact Nat.dvd_add (dvd_trans hedvd h4) dvd_rfl
    · exact h5

/-- A split step preserves the pointwise block count: the two halves cover
exactly the donor's range. -/
theorem splitResult_countP {total : Nat} {mem : FreeTable} {c : Nat} {blk : Block}
    {rest : List Block} (hc2 : 2 ∣ c) (hlk : freeLookup mem c = blk :: rest)
    (hwf : WfMem total mem) :
    ∀ x, (freeBlocks (splitResult mem c blk rest)).countP (containsB x) =
      (freeBlocks mem).countP (containsB x) := by
  intro x
  obtain ⟨h1, h2, h3, h4, h5, hmid, h7⟩ := splitResult_facts hc2 hlk hwf
  have hget : dictGet? mem c = some (blk :: rest) := by
    have hne : freeLookup mem c ≠ [] := by rw [hlk]; simp
    have h' := freeLookup_ne_nil hne
    rw [hlk] at h'
    exact h'
  unfold splitResult
  rw [countP_freeBlocks_memAppend, countP_freeBlocks_memAppend]
  have hset := countP_freeBlocks_dictSet (containsB x) rest hget
  rw [List.countP_cons] at hset
  have hsplit : (if containsB x blk then 1 else 0) =
      (if containsB x (blk.1, (blk.1 + blk.2) / 2) then 1 else 0) +
      (if containsB x ((blk.1 + blk.2) / 2, blk.2) then 1 else 0) := by
    simp only [containsB, decide_eq_true_eq]
    split_ifs <;> omega
  omega

/-- Lookup-level statement of `NoPairs`. -/
def NPL (m : FreeTable) : Prop :=
  ∀ s : Nat, ∀ b ∈ freeLookup m s, (b.1 ^^^ s, (b.1 ^^^ s) + s) ∉ freeLookup m s

/-- The transient mid-allocation shape maintained by the allocate loop:
exactly one freshly split pair of buddies sits at class `bs * 2 ^ j`, every
scan class strictly below is empty, and no other buddy pair exists. -/
def PairSt (bs : Nat) (m : FreeTable) : Prop :=
  ∃ (j : Nat) (a : Nat),
    freeLookup m (bs * 2 ^ j) =
      [(a, a + bs * 2 ^ j), (a + bs * 2 ^ j, a + 2 * (bs * 2 ^ j))] ∧
    2 * (bs * 2 ^ j) ∣ a ∧
    (∀ i, i < j → freeLookup m (bs * 2 ^ i) = []) ∧
    (∀ s : Nat, ∀ b ∈ freeLookup m s,
      (b.1 ^^^ s, (b.1 ^^^ s) + s) ∈ freeLookup m s → s = bs * 2 ^ j)

/-- Combined number of blocks (free plus allocated) containing `x`. -/
def CC (m : FreeTable) (al : AllocTable) (x : Nat) : Nat :=
  (freeBlocks m).countP (containsB x) + (allocBlocks al).countP (containsB x)

theorem blocksAt_eq_CC (sys : BuddySystem) (x : Nat) :
    blocksAt sys x = CC sys.memory sys.allocated x := by
  unfold blocksAt CC
  rw [List.countP_append]

/-- The buddy of an even-index block is the next block up. -/
theorem buddy_of_lower {e a : Nat} (hp : isPow2 e = true) (hd : 2 * e ∣ a) :
    a ^^^ e = a + e := by
  rw [isPow2_iff] at hp
  obtain ⟨k, rfl⟩ := hp
  apply xor_two_pow_of_dvd
  have : (2 : Nat) ^ (k + 1) = 2 * 2 ^ k := by rw [pow_succ]; ring
  rw [this]
  exact hd

/-- The buddy of an odd-index block is the previous block down. -/
theorem buddy_of_upper {e a : Nat} (hp : isPow2 e = true) (hd : 2 * e ∣ a) :
    (a + e) ^^^ e = a := by
  rw [isPow2_iff] at hp
  obtain ⟨k, rfl⟩ := hp
  apply add_pow_xor
  have : (2 : Nat) ^ (k + 1) = 2 * 2 ^ k := by rw [pow_succ]; ring
  rw [this]
  exact hd

/-- Popping the head of the needed class from a loop-invariant state leaves
a fully coalesced table: the surviving half's buddy is the one being
handed out. -/
theorem npl_after_pop {total bs : Nat} {mem : FreeTable} {blk : Block}
    {rest : List Block} (hwf : WfMem total mem)
    (hlk : freeLookup mem bs = blk :: rest)
    (hlp : NPL mem ∨ PairSt bs mem) :
    NPL (dictSet mem bs rest) := by
  have hlook : ∀ s : Nat, freeLookup (dictSet mem bs rest) s =
      if s = bs then rest else freeLookup mem s := by
    intro s
    by_cases hs : s = bs
    · subst hs
      rw [if_pos rfl, freeLookup_dictSet_self]
    · rw [if_neg hs, freeLookup_dictSet_ne _ _ _ _ hs]
  rcases hlp with hnp | hps
  · refine npl_sublookup ?_ hnp
    intro s b hb
    rw [hlook] at hb
    by_cases hs : s = bs
    · rw [if_pos hs] at hb
      rw [hs, hlk]
      exact List.mem_cons_of_mem _ hb
    · rw [if_neg hs] at hb
      exact hb
  · obtain ⟨j, a, hpair, hal, hemp, honly⟩ := hps
    have hj : j = 0 := by
      by_contra hj0
      have := hemp 0 (by omega)
      rw [pow_zero, Nat.mul_one] at this
      rw [this] at hlk
      cases hlk
    subst hj
    rw [pow_zero, Nat.mul_one] at hpair hal honly
    have hbs2 : 0 < bs := by
      have hb1 : (a, a + bs) ∈ freeLookup mem bs := by
        rw [hpair]; exact List.mem_cons_self _ _
      exact (wfMem_lookup hwf hb1).2.1
    have hpow : isPow2 bs = true := by
      have hb1 : (a, a + bs) ∈ freeLookup mem bs := by
        rw [hpair]; exact List.mem_cons_self _ _
      exact (wfMem_lookup hwf hb1).2.2.1
    have hblk : blk = (a, a + bs) ∧ rest = [(a + bs, a + 2 * bs)] := by
      rw [hpair] at hlk
      simp only [List.cons.injEq] at hlk
      exact ⟨hlk.1.symm, hlk.2.symm⟩
    obtain ⟨hblk1, hrest⟩ := hblk
    intro s b hb hbd
    rw [hlook] at hb hbd
    by_cases hs : s = bs
    · rw [if_pos hs, hrest] at hb hbd
      have hbval : b = (a + bs, a + 2 * bs) := List.mem_singleton.mp hb
      subst hbval
      rw [hs] at hbd
      have hx : (a + bs) ^^^ bs = a := buddy_of_upper hpow hal
      rw [List.mem_singleton] at hbd
      simp only [hx, Prod.mk.injEq] at hbd
      omega
    · rw [if_neg hs] at hb hbd
      exact hs (honly s b hb hbd)

/-- In a loop-invariant state where the needed class and all scan classes
are empty, or where even the needed class exceeds capacity, no transient
pair can exist, so the table is fully coalesced. -/
theorem npl_of_stuck {total bs : Nat} {mem : FreeTable} (hbs : 0 < bs)
    (hwf : WfMem total mem) (hlp : NPL mem ∨ PairSt bs mem)
    (hstuck : (freeLookup mem bs = [] ∧
        ∀ i : Nat, bs * 2 * 2 ^ i ≤ total → freeLookup mem (bs * 2 * 2 ^ i) = []) ∨
      total < bs) :
    NPL mem := by
  rcases hlp with hnp | hps
  · exact hnp
  · exfalso
    obtain ⟨j, a, hpair, hal, hemp, honly⟩ := hps
    have hb1 : (a, a + bs * 2 ^ j) ∈ freeLookup mem (bs * 2 ^ j) := by
      rw [hpair]; exact List.mem_cons_self _ _
    have hwf1 := wfMem_lookup hwf hb1
    have hle : bs * 2 ^ j ≤ total := by
      have h1 := hwf1.1
      have h2 := hwf1.2.2.2.2
      omega
    have hbsle : bs ≤ bs * 2 ^ j := Nat.le_mul_of_pos_right bs (Nat.two_pow_pos j)
    rcases hstuck with ⟨hbs0, hscan⟩ | htot
    · have hj : j ≠ 0 := by
        intro hj0
        subst hj0
        rw [pow_zero, Nat.mul_one] at hpair
        rw [hbs0] at hpair
        cases hpair
      have harr : bs * 2 * 2 ^ (j - 1) = bs * 2 ^ j := by
        have : j - 1 + 1 = j := by omega
        calc bs * 2 * 2 ^ (j - 1) = bs * 2 ^ (j - 1 + 1) := by ring
        _ = bs * 2 ^ j := by rw [this]
      have := hscan (j - 1) (by rw [harr]; exact hle)
      rw [harr] at this
      rw [this] at hpair
      cases hpair
    · omega

/-- Splitting a donor in a fully coalesced table leaves exactly the pair of
fresh halves as the only buddy pair (with all scan classes below empty). -/
theorem pairSt_after_split_npl {total bs : Nat} (hbs : 0 < bs) {mem : FreeTable} {j : Nat}
    {blk : Block} {rest : List Block} (hwf : WfMem total mem)
    (hempty : ∀ i, i < j → freeLookup mem (bs * 2 * 2 ^ i) = [])
    (hbs0 : freeLookup mem bs = [])
    (hlk : freeLookup mem (bs * 2 * 2 ^ j) = blk :: rest)
    (hnp : NPL mem) :
    PairSt bs (splitResult mem (bs * 2 * 2 ^ j) blk rest) := by
  have hc2 : 2 ∣ (bs * 2 * 2 ^ j) := ⟨bs * 2 ^ j, by ring⟩
  obtain ⟨hb2, hcpos, hcpow, hcdvd, hble, hmid, h7⟩ := splitResult_facts hc2 hlk hwf
  have hce : bs * 2 * 2 ^ j / 2 = bs * 2 ^ j := by
    have hh : bs * 2 * 2 ^ j = 2 * (bs * 2 ^ j) := by ring
    rw [hh]
    exact Nat.mul_div_cancel_left _ (by norm_num)
  have hcge : 2 ≤ bs * 2 * 2 ^ j := by
    have h1 : 0 < 2 ^ j := Nat.two_pow_pos j
    calc (2 : Nat) = 1 * 2 * 1 := by norm_num
    _ ≤ bs * 2 * 2 ^ j := Nat.mul_le_mul (Nat.mul_le_mul hbs (le_refl 2)) h1
  have hemem : freeLookup mem (bs * 2 ^ j) = [] := by
    match j with
    | 0 =>
      rw [pow_zero, Nat.mul_one]
      exact hbs0
    | j' + 1 =>
      have hh := hempty j' (by omega)
      have harr : bs * 2 * 2 ^ j' = bs * 2 ^ (j' + 1) := by ring
      rw [harr] at hh
      exact hh
  refine ⟨j, blk.1, ?_, ?_, ?_, ?_⟩
  · have hlh : freeLookup (splitResult mem (bs * 2 * 2 ^ j) blk rest) (bs * 2 * 2 ^ j / 2) =
        freeLookup mem (bs * 2 * 2 ^ j / 2) ++
          [(blk.1, (blk.1 + blk.2) / 2), ((blk.1 + blk.2) / 2, blk.2)] :=
      splitResult_lookup_half hcge
    rw [hce] at hlh
    rw [hlh, hemem, List.nil_append]
    have hmid' : (blk.1 + blk.2) / 2 = blk.1 + bs * 2 ^ j := by rw [hmid, hce]
    have hb2' : blk.2 = blk.1 + 2 * (bs * 2 ^ j) := by
      have hh : bs * 2 * 2 ^ j = 2 * (bs * 2 ^ j) := by ring
      omega
    rw [hmid', hb2']
  · have hh : 2 * (bs * 2 ^ j) = bs * 2 * 2 ^ j := by ring
    rw [hh]
    exact hcdvd
  · intro i hi
    have hne1 : bs * 2 ^ i ≠ bs * 2 * 2 ^ j := by
      have h1 : bs * 2 ^ i < bs * 2 ^ (j + 1) := class_strict_mono hbs (by omega)
      have h2 : bs * 2 ^ (j + 1) = bs * 2 * 2 ^ j := by ring
      omega
    have hne2 : bs * 2 ^ i ≠ bs * 2 * 2 ^ j / 2 := by
      rw [hce]
      have := class_strict_mono hbs hi
      omega
    rw [splitResult_lookup_other hne1 hne2]
    match i with
    | 0 =>
      rw [pow_zero, Nat.mul_one]
      exact hbs0
    | i' + 1 =>
      have hh := hempty i' (by omega)
      have harr : bs * 2 * 2 ^ i' = bs * 2 ^ (i' + 1) := by ring
      rw [harr] at hh
      exact hh
  · intro s b hb hbd
    by_cases hse : s = bs * 2 ^ j
    · exact hse
    · exfalso
      by_cases hsc : s = bs * 2 * 2 ^ j
      · subst hsc
        rw [splitResult_lookup_c hcge] at hb hbd
        have hb' : b ∈ freeLookup mem (bs * 2 * 2 ^ j) := by
          rw [hlk]
          exact List.mem_cons_of_mem _ hb
        have hbd' : (b.1 ^^^ (bs * 2 * 2 ^ j), (b.1 ^^^ (bs * 2 * 2 ^ j)) + bs * 2 * 2 ^ j) ∈
            freeLookup mem (bs * 2 * 2 ^ j) := by
          rw [hlk]
          exact List.mem_cons_of_mem _ hbd
        exact hnp _ b hb' hbd'
      · have hse' : s ≠ bs * 2 * 2 ^ j / 2 := by
          rw [hce]
          exact hse
        rw [splitResult_lookup_other hsc hse'] at hb hbd
        exact hnp s b hb hbd

/-- Splitting the surviving transient pair pushes it one class down: the
lower half is split into a fresh pair, and the upper half's buddy is gone. -/
theorem pairSt_after_split_ps {total bs : Nat} (hbs : 0 < bs) {mem : FreeTable} {j : Nat}
    {blk : Block} {rest : List Block} (hwf : WfMem total mem)
    (hempty : ∀ i, i < j → freeLookup mem (bs * 2 * 2 ^ i) = [])
    (hbs0 : freeLookup mem bs = [])
    (hlk : freeLookup mem (bs * 2 * 2 ^ j) = blk :: rest)
    (hps : PairSt bs mem) :
    PairSt bs (splitResult mem (bs * 2 * 2 ^ j) blk rest) := by
  obtain ⟨jp, a, hpair, hal, hempp, honly⟩ := hps
  -- the transient class cannot be the needed class itself
  have hjp : jp ≠ 0 := by
    intro h0
    subst h0
    rw [pow_zero, Nat.mul_one] at hpair
    rw [hbs0] at hpair
    cases hpair
  -- the donor class found by the scan is exactly the transient class
  have hjeq : j + 1 = jp := by
    by_contra hne
    rcases Nat.lt_or_ge (j + 1) jp with hlt | hge
    · have hh := hempp (j + 1) hlt
      have harr : bs * 2 ^ (j + 1) = bs * 2 * 2 ^ j := by ring
      rw [harr] at hh
      rw [hh] at hlk
      cases hlk
    · have hlt2 : jp - 1 < j := by omega
      have hh := hempty (jp - 1) hlt2
      have harr : bs * 2 * 2 ^ (jp - 1) = bs * 2 ^ jp := by
        have hh2 : jp - 1 + 1 = jp := by omega
        calc bs * 2 * 2 ^ (jp - 1) = bs * 2 ^ (jp - 1 + 1) := by ring
        _ = bs * 2 ^ jp := by rw [hh2]
      rw [harr] at hh
      rw [hh] at hpair
      cases hpair
  have harrc : bs * 2 * 2 ^ j = bs * 2 ^ jp := by
    rw [← hjeq]
    ring
  have hc2 : 2 ∣ (bs * 2 * 2 ^ j) := ⟨bs * 2 ^ j, by ring⟩
  obtain ⟨hb2, hcpos, hcpow, hcdvd, hble, hmid, h7⟩ := splitResult_facts hc2 hlk hwf
  have hce : bs * 2 * 2 ^ j / 2 = bs * 2 ^ j := by
    have hh : bs * 2 * 2 ^ j = 2 * (bs * 2 ^ j) := by ring
    rw [hh]
    exact Nat.mul_div_cancel_left _ (by norm_num)
  have hcge : 2 ≤ bs * 2 * 2 ^ j := by
    have h1 : 0 < 2 ^ j := Nat.two_pow_pos j
    calc (2 : Nat) = 1 * 2 * 1 := by norm_num
    _ ≤ bs * 2 * 2 ^ j := Nat.mul_le_mul (Nat.mul_le_mul hbs (le_refl 2)) h1
  -- identify the donor with the lower half of the transient pair
  have hblkrest : blk = (a, a + bs * 2 ^ jp) ∧ rest = [(a + bs * 2 ^ jp, a + 2 * (bs * 2 ^ jp))] := by
    rw [harrc] at hlk
    rw [hpair] at hlk
    simp only [List.cons.injEq] at hlk
    exact ⟨hlk.1.symm, hlk.2.symm⟩
  obtain ⟨hblk1, hrest⟩ := hblkrest
  have hemem : freeLookup mem (bs * 2 ^ j) = [] := hempp j (by omega)
  have hpowp : isPow2 (bs * 2 ^ jp) = true := by
    rw [← harrc]
    exact hcpow
  refine ⟨j, a, ?_, ?_, ?_, ?_⟩
  · have hlh : freeLookup (splitResult mem (bs * 2 * 2 ^ j) blk rest) (bs * 2 * 2 ^ j / 2) =
        freeLookup mem (bs * 2 * 2 ^ j / 2) ++
          [(blk.1, (blk.1 + blk.2) / 2), ((blk.1 + blk.2) / 2, blk.2)] :=
      splitResult_lookup_half hcge
    rw [hce] at hlh
    rw [hlh, hemem, List.nil_append]
    have hmid' : (blk.1 + blk.2) / 2 = blk.1 + bs * 2 ^ j := by rw [hmid, hce]
    have hb2' : blk.2 = blk.1 + 2 * (bs * 2 ^ j) := by
      have hh : bs * 2 * 2 ^ j = 2 * (bs * 2 ^ j) := by ring
      omega
    rw [hmid', hb2', hblk1]
  · have hdvd1 : bs * 2 ^ jp ∣ a := by
      refine dvd_trans ?_ hal
      exact ⟨2, by ring⟩
    have hh : 2 * (bs * 2 ^ j) = bs * 2 ^ jp := by
      rw [← harrc]
      ring
    rw [hh]
    exact hdvd1
  · intro i hi
    have hne1 : bs * 2 ^ i ≠ bs * 2 * 2 ^ j := by
      have h1 : bs * 2 ^ i < bs * 2 ^ (j + 1) := class_strict_mono hbs (by omega)
      have h2 : bs * 2 ^ (j + 1) = bs * 2 * 2 ^ j := by ring
      omega
    have hne2 : bs * 2 ^ i ≠ bs * 2 * 2 ^ j / 2 := by
      rw [hce]
      have := class_strict_mono hbs hi
      omega
    rw [splitResult_lookup_other hne1 hne2]
    exact hempp i (by omega)
  · intro s b hb hbd
    by_cases hse : s = bs * 2 ^ j
    · exact hse
    · exfalso
      by_cases hsc : s = bs * 2 * 2 ^ j
      · subst hsc
        rw [splitResult_lookup_c hcge] at hb hbd
        rw [hrest] at hb hbd
        have hbval : b = (a + bs * 2 ^ jp, a + 2 * (bs * 2 ^ jp)) := List.mem_singleton.mp hb
        subst hbval
        rw [harrc] at hbd
        have hx : (a + bs * 2 ^ jp) ^^^ (bs * 2 ^ jp) = a := buddy_of_upper hpowp hal
        rw [List.mem_singleton] at hbd
        simp only [hx, Prod.mk.injEq] at hbd
        have hp0 : 0 < bs * 2 ^ jp := by
          have := Nat.two_pow_pos jp
          positivity
        omega
      · have hse' : s ≠ bs * 2 * 2 ^ j / 2 := by
          rw [hce]
          exact hse
        rw [splitResult_lookup_other hsc hse'] at hb hbd
        have hsp := honly s b hb hbd
        rw [hsp] at hsc
        rw [← harrc] at hsc
        exact hsc rfl

/-- The allocate loop preserves the allocator invariant: well-formed
tables, duplicate-free keys, the exact partition count, and (at exit) full
coalescing; a returned block is an aligned power-of-two block of exactly
the requested class. -/
theorem allocLoop_inv (total bs : Nat) (sz : Int) :
    ∀ (mem : FreeTable) (alloc : AllocTable) (hbs : 0 < bs),
    WfMem total mem → (mem.map Prod.fst).Nodup →
    WfAlloc total alloc → (alloc.map Prod.fst).Nodup →
    (∀ x, x < total → CC mem alloc x = 1) →
    (NPL mem ∨ PairSt bs mem) →
    WfMem total (allocLoop total bs sz mem alloc hbs).2.1 ∧
    ((allocLoop total bs sz mem alloc hbs).2.1.map Prod.fst).Nodup ∧
    WfAlloc total (allocLoop total bs sz mem alloc hbs).2.2 ∧
    ((allocLoop total bs sz mem alloc hbs).2.2.map Prod.fst).Nodup ∧
    (∀ x, x < total →
      CC (allocLoop total bs sz mem alloc hbs).2.1 (allocLoop total bs sz mem alloc hbs).2.2 x = 1) ∧
    NPL (allocLoop total bs sz mem alloc hbs).2.1 ∧
    (∀ blk : Block, (allocLoop total bs sz mem alloc hbs).1 = some blk →
      bs ∣ blk.1 ∧ blk.2 = blk.1 + bs ∧ blk.2 ≤ total ∧ 0 < bs ∧ isPow2 bs = true ∧
      (allocLoop total bs sz mem alloc hbs).2.2 = dictSet alloc blk.1 (sz, bs)) := by
  intro mem alloc hbs
  induction mem, alloc, hbs using allocLoop.induct total bs sz with
  | case1 mem alloc hbs hle blk rest hm =>
    intro hwf hnd hwa hnda hcc hlp
    rw [allocLoop_eq_pop hle hm]
    have hbmem : blk ∈ freeLookup mem bs := by
      rw [hm]
      exact List.mem_cons_self _ _
    obtain ⟨hb2, hbspos, hbspow, hbsdvd, hbl⟩ := wfMem_lookup hwf hbmem
    have hget : dictGet? mem bs = some (blk :: rest) := by
      have hne : freeLookup mem bs ≠ [] := by rw [hm]; simp
      have h' := freeLookup_ne_nil hne
      rw [hm] at h'
      exact h'
    have hfresh : dictGet? alloc blk.1 = none := by
      cases hga : dictGet? alloc blk.1 with
      | none => rfl
      | some v =>
        exfalso
        have hx1 : blk.1 < total := by omega
        have hcntf : 0 < (freeBlocks mem).countP (containsB blk.1) := by
          rw [List.countP_pos]
          refine ⟨blk, freeBlocks_of_lookup hbmem, ?_⟩
          simp only [containsB, decide_eq_true_eq]
          omega
        have hmema := dictGet?_mem hga
        have hwa1 := hwa _ hmema
        have hcnta : 0 < (allocBlocks alloc).countP (containsB blk.1) := by
          rw [List.countP_pos]
          refine ⟨(blk.1, blk.1 + v.2), ?_, ?_⟩
          · exact List.mem_map_of_mem _ hmema
          · simp only [containsB, decide_eq_true_eq]
            have hv2 : 0 < v.2 := hwa1.1
            omega
        have hccx := hcc blk.1 hx1
        unfold CC at hccx
        omega
    refine ⟨?_, keys_nodup_dictSet _ _ hnd, ?_, keys_nodup_dictSet _ _ hnda, ?_, ?_, ?_⟩
    · apply wfMem_dictSet hwf
      intro b hb
      apply wfMem_lookup hwf
      rw [hm]
      exact List.mem_cons_of_mem _ hb
    · apply wfAlloc_dictSet hwa
      exact ⟨hbspos, hbspow, hbsdvd, by omega⟩
    · intro x hx
      have hccx := hcc x hx
      unfold CC at hccx ⊢
      have hsetf := countP_freeBlocks_dictSet (containsB x) rest hget
      rw [List.countP_cons] at hsetf
      show (freeBlocks (dictSet mem bs rest)).countP (containsB x) +
        (allocBlocks (dictSet alloc blk.1 (sz, bs))).countP (containsB x) = 1
      rw [allocBlocks_dictSet_none _ hfresh, List.countP_append]
      have hbb : (blk.1, blk.1 + bs) = blk := by rw [← hb2]
      have hone : List.countP (containsB x) [(blk.1, blk.1 + bs)] =
          if containsB x blk then 1 else 0 := by
        rw [hbb, List.countP_cons]
        simp
      rw [hone]
      omega
    · exact npl_after_pop hwf hm hlp
    · intro blk' hblk'
      have hsame : blk = blk' := by
        have : some blk = some blk' := hblk'
        cases this
        rfl
      subst hsame
      exact ⟨hbsdvd, hb2, hbl, hbspos, hbspow, rfl⟩
  | case2 mem alloc hbs hle hm mem' hsp ih =>
    intro hwf hnd hwa hnda hcc hlp
    rw [allocLoop_eq_split hle hm hsp]
    obtain ⟨j, blk, rest, hempty, hjle, hlkc, hmem'⟩ :=
      splitScan_true_spec' total mem (bs * 2) (by omega) mem' hsp
    have hc2 : 2 ∣ (bs * 2 * 2 ^ j) := ⟨bs * 2 ^ j, by ring⟩
    subst hmem'
    apply ih
    · exact splitResult_wf hc2 hlkc hwf
    · exact splitResult_nodup hnd
    · exact hwa
    · exact hnda
    · intro x hx
      have hccx := hcc x hx
      unfold CC at hccx ⊢
      rw [splitResult_countP hc2 hlkc hwf x]
      exact hccx
    · rcases hlp with hnp | hps
      · exact Or.inr (pairSt_after_split_npl hbs hwf hempty hm hlkc hnp)
      · exact Or.inr (pairSt_after_split_ps hbs hwf hempty hm hlkc hps)
  | case3 mem alloc hbs hle hm mem' hsp =>
    intro hwf hnd hwa hnda hcc hlp
    rw [allocLoop_eq_fail hle hm hsp]
    obtain ⟨hmm', hscan⟩ := splitScan_false_spec total mem (bs * 2) (by omega) mem' hsp
    subst hmm'
    have hnp : NPL mem' := npl_of_stuck hbs hwf hlp (Or.inl ⟨hm, hscan⟩)
    exact ⟨hwf, hnd, hwa, hnda, hcc, hnp, fun blk h => by cases h⟩
  | case4 mem alloc hbs hle =>
    intro hwf hnd hwa hnda hcc hlp
    rw [allocLoop_eq_oob hle]
    have hnp : NPL mem := npl_of_stuck hbs hwf hlp (Or.inr (by omega))
    exact ⟨hwf, hnd, hwa, hnda, hcc, hnp, fun blk h => by cases h⟩

theorem countP_lookup_le (m : FreeTable) (s : Nat) (p : Block → Bool) :
    (freeLookup m s).countP p ≤ (freeBlocks m).countP p := by
  induction m with
  | nil => simp [freeLookup, dictGet?, freeBlocks]
  | cons q rest ih =>
    obtain ⟨k', v'⟩ := q
    unfold freeLookup freeBlocks at *
    rw [dictGet?]
    simp only [List.map_cons, List.flatten_cons, List.countP_append]
    by_cases hk : k' = s
    · rw [if_pos hk]
      simp
    · rw [if_neg hk]
      omega

/-- Geometry of a coalescing step: the two buddies are the two halves of an
aligned parent block of double size. -/
theorem merge_geometry {total size : Nat} {mem : FreeTable} {block : Block}
    (hwf : WfMem total mem) (hblk : block ∈ freeLookup mem size)
    (hbd : (block.1 ^^^ size, (block.1 ^^^ size) + size) ∈ freeLookup mem size) :
    ∃ m0 : Nat, 2 * size ∣ m0 ∧ m0 + 2 * size ≤ total ∧
      ((block.1 = m0 ∧ block.1 ^^^ size = m0 + size) ∨
        (block.1 = m0 + size ∧ block.1 ^^^ size = m0)) ∧
      min block.1 (block.1 ^^^ size) = m0 ∧
      max block.2 ((block.1 ^^^ size) + size) = m0 + 2 * size ∧
      block.2 = block.1 + size := by
  obtain ⟨hb2, hszpos, hszpow, hszdvd, hble⟩ := wfMem_lookup hwf hblk
  obtain ⟨hd2, _, _, _, hdle⟩ := wfMem_lookup hwf hbd
  rw [isPow2_iff] at hszpow
  obtain ⟨k, hk⟩ := hszpow
  subst hk
  have h2p : 2 * 2 ^ k = 2 ^ (k + 1) := by rw [pow_succ]; ring
  rcases xor_buddy_cases hszdvd with ⟨hdvd, hxor⟩ | ⟨hdvd, hge, hxor⟩
  · refine ⟨block.1, by rw [h2p]; exact hdvd, ?_, Or.inl ⟨rfl, hxor⟩, ?_, ?_, hb2⟩
    · have : (block.1 ^^^ 2 ^ k) + 2 ^ k ≤ total := by
        simp only at hdle
        omega
      omega
    · omega
    · rw [hxor]
      omega
  · refine ⟨block.1 - 2 ^ k, by rw [h2p]; exact hdvd, ?_, Or.inr ⟨by omega, by omega⟩, ?_, ?_, hb2⟩
    · omega
    · omega
    · rw [hxor]
      omega

/-- The coalescing cascade preserves the allocator invariant, and when it
stops the table is fully coalesced (given that the only buddy pair on entry
is the one being merged). -/
theorem merge_inv (total : Nat) (alloc : AllocTable) :
    ∀ (mem : FreeTable) (size : Nat) (block : Block) (hblk : block ∈ freeLookup mem size)
    (hsz : 0 < size),
    WfMem total mem → (mem.map Prod.fst).Nodup →
    (∀ x, x < total → CC mem alloc x = 1) →
    (∀ s : Nat, ∀ b ∈ freeLookup mem s, (b.1 ^^^ s, (b.1 ^^^ s) + s) ∈ freeLookup mem s →
      s = size ∧ (b = block ∨ b = (block.1 ^^^ size, (block.1 ^^^ size) + size))) →
    WfMem total (merge_buddies mem size block hblk hsz) ∧
    ((merge_buddies mem size block hblk hsz).map Prod.fst).Nodup ∧
    (∀ x, x < total → CC (merge_buddies mem size block hblk hsz) alloc x = 1) ∧
    NPL (merge_buddies mem size block hblk hsz) := by
  intro mem size block hblk hsz
  induction mem, size, block, hblk, hsz using merge_buddies.induct with
  | case1 mem size block hblk hsz hbd ih =>
    intro hwf hnd hcc honly
    rw [merge_buddies, dif_pos hbd]
    obtain ⟨hb2, hszpos, hszpow, hszdvd, hble⟩ := wfMem_lookup hwf hblk
    obtain ⟨m0, hm0dvd, hm0le, hcases, hmin, hmax, _⟩ := merge_geometry hwf hblk hbd
    have hpow2s : isPow2 (size * 2) = true := by
      rw [isPow2_iff] at hszpow ⊢
      obtain ⟨k, hk⟩ := hszpow
      exact ⟨k + 1, by rw [hk, pow_succ]⟩
    have hne : block ≠ (block.1 ^^^ size, (block.1 ^^^ size) + size) := by
      intro he
      have h1 : block.1 = block.1 ^^^ size := congrArg Prod.fst he
      exact xor_ne_self hsz h1.symm
    have hget : dictGet? mem size = some (freeLookup mem size) := by
      apply freeLookup_ne_nil
      intro h
      rw [h] at hblk
      simp at hblk
    have hble2 : block ∈ (freeLookup mem size).erase (block.1 ^^^ size, (block.1 ^^^ size) + size) :=
      (List.mem_erase_of_ne hne).mpr hblk
    -- the portion of the state manipulated by this step
    have hlook2 : ∀ s : Nat,
        freeLookup (memAppend (dictSet mem size
            (((freeLookup mem size).erase (block.1 ^^^ size, (block.1 ^^^ size) + size)).erase block))
          (size * 2)
          (min block.1 (block.1 ^^^ size), max block.2 ((block.1 ^^^ size) + size))) s =
        if s = size * 2 then
          freeLookup mem (size * 2) ++
            [(min block.1 (block.1 ^^^ size), max block.2 ((block.1 ^^^ size) + size))]
        else if s = size then
          ((freeLookup mem size).erase (block.1 ^^^ size, (block.1 ^^^ size) + size)).erase block
        else freeLookup mem s := by
      intro s
      by_cases hs2 : s = size * 2
      · subst hs2
        rw [if_pos rfl, freeLookup_memAppend_self, freeLookup_dictSet_ne _ _ _ _ (by omega)]
      · rw [if_neg hs2, freeLookup_memAppend_ne _ _ _ _ hs2]
        by_cases hs1 : s = size
        · subst hs1
          rw [if_pos rfl, freeLookup_dictSet_self]
        · rw [if_neg hs1, freeLookup_dictSet_ne _ _ _ _ hs1]
    apply ih
    · -- WfMem of the merged table
      apply wfMem_memAppend
      · apply wfMem_dictSet hwf
        intro b hb
        exact wfMem_lookup hwf (List.mem_of_mem_erase (List.mem_of_mem_erase hb))
      · constructor
        · simp only
          rcases hcases with ⟨h1, h2⟩ | ⟨h1, h2⟩ <;> omega
        refine ⟨by omega, hpow2s, ?_, ?_⟩
        · simp only
          rw [hmin]
          have : 2 * size = size * 2 := by ring
          rw [← this]
          exact hm0dvd
        · simp only
          omega
    · exact keys_nodup_dictSet _ _ (keys_nodup_dictSet _ _ hnd)
    · -- the pointwise count is preserved
      intro x hx
      have hccx := hcc x hx
      unfold CC at hccx ⊢
      have h1 := countP_freeBlocks_memAppend (containsB x)
        (dictSet mem size
          (((freeLookup mem size).erase (block.1 ^^^ size, (block.1 ^^^ size) + size)).erase block))
        (size * 2)
        (min block.1 (block.1 ^^^ size), max block.2 ((block.1 ^^^ size) + size))
      have h2 := countP_freeBlocks_dictSet (containsB x)
        (((freeLookup mem size).erase (block.1 ^^^ size, (block.1 ^^^ size) + size)).erase block)
        hget
      have h3 := countP_erase (containsB x) (freeLookup mem size)
        (block.1 ^^^ size, (block.1 ^^^ size) + size) hbd
      have h4 := countP_erase (containsB x)
        ((freeLookup mem size).erase (block.1 ^^^ size, (block.1 ^^^ size) + size)) block hble2
      have hgeom : (if containsB x (min block.1 (block.1 ^^^ size),
            max block.2 ((block.1 ^^^ size) + size)) then 1 else 0) =
          (if containsB x block then 1 else 0) +
          (if containsB x (block.1 ^^^ size, (block.1 ^^^ size) + size) then 1 else 0) := by
        simp only [containsB, decide_eq_true_eq, hmin, hmax]
        rcases hcases with ⟨h5, h6⟩ | ⟨h5, h6⟩ <;>
          · rw [h6]
            split_ifs <;> omega
      rw [h1]
      omega
    · -- the only possible pair now involves the merged block
      intro s b hb hbd2
      rw [hlook2] at hb hbd2
      by_cases hs2 : s = size * 2
      · subst hs2
        rw [if_pos rfl] at hb hbd2
        refine ⟨rfl, ?_⟩
        rcases List.mem_append.mp hb with hbm | hbm
        · -- b was already at the double class: its buddy must be the merged block
          rcases List.mem_append.mp hbd2 with hdm | hdm
          · exact absurd ((honly _ b hbm hdm).1) (by omega)
          · right
            have hdm' := List.mem_singleton.mp hdm
            obtain ⟨hbb2, _, _, _, _⟩ := wfMem_lookup hwf hbm
            have hb1 : b.1 = (min block.1 (block.1 ^^^ size)) ^^^ (size * 2) := by
              have h5 := congrArg Prod.fst hdm'
              simp only at h5
              rw [← h5, Nat.xor_assoc, Nat.xor_self, Nat.xor_zero]
            rw [Prod.ext_iff]
            refine ⟨by simp only; rw [hb1], ?_⟩
            simp only
            rw [hbb2, hb1]
        · have hbm' := List.mem_singleton.mp hbm
          exact Or.inl hbm'
      · rw [if_neg hs2] at hb hbd2
        by_cases hs1 : s = size
        · rw [hs1, if_pos rfl] at hb hbd2
          exfalso
          -- a surviving copy of either merged buddy would mean a duplicate
          -- block in the free table, contradicting the partition count
          have hbl : b ∈ freeLookup mem size :=
            List.mem_of_mem_erase (List.mem_of_mem_erase hb)
          have hbdl : (b.1 ^^^ size, (b.1 ^^^ size) + size) ∈ freeLookup mem size :=
            List.mem_of_mem_erase (List.mem_of_mem_erase hbd2)
          obtain ⟨hbb2, hbpos, _, _, hbble⟩ := wfMem_lookup hwf hbl
          have hx1 : b.1 < total := by omega
          have hp : containsB b.1 b = true := by
            simp only [containsB, decide_eq_true_eq]
            omega
          have hpb : containsB b.1 block = true ∨
              containsB b.1 (block.1 ^^^ size, (block.1 ^^^ size) + size) = true := by
            rcases (honly size b hbl hbdl).2 with hbeq | hbeq
            · exact Or.inl (by rw [← hbeq]; exact hp)
            · exact Or.inr (by rw [← hbeq]; exact hp)
          have hcnt2 : 2 ≤ (freeLookup mem size).countP (containsB b.1) := by
            have hc1 := countP_erase (containsB b.1) (freeLookup mem size)
              (block.1 ^^^ size, (block.1 ^^^ size) + size) hbd
            have hc2 := countP_erase (containsB b.1)
              ((freeLookup mem size).erase (block.1 ^^^ size, (block.1 ^^^ size) + size))
              block hble2
            have hc3 : 0 < ((((freeLookup mem size).erase
                (block.1 ^^^ size, (block.1 ^^^ size) + size))).erase block).countP
                (containsB b.1) := by
              rw [List.countP_pos]
              exact ⟨b, hb, hp⟩
            rcases hpb with hq | hq
            · rw [hq, if_pos rfl] at hc2
              omega
            · rw [hq, if_pos rfl] at hc1
              omega
          have hle2 := countP_lookup_le mem size (containsB b.1)
          have hccb := hcc b.1 hx1
          unfold CC at hccb
          omega
        · rw [if_neg hs1] at hb hbd2
          exact absurd ((honly s b hb hbd2).1) hs1
  | case2 mem size block hblk hsz hbd =>
    intro hwf hnd hcc honly
    rw [merge_buddies, dif_neg hbd]
    refine ⟨hwf, hnd, hcc, ?_⟩
    intro s b hb hbd2
    obtain ⟨hs, hcase⟩ := honly s b hb hbd2
    subst hs
    obtain ⟨hb2, _, _, _, _⟩ := wfMem_lookup hwf hblk
    rcases hcase with hbeq | hbeq
    · subst hbeq
      exact hbd hbd2
    · subst hbeq
      exact hbd hb

theorem dictDel_mem_subset {α : Type} {m : List (Nat × α)} {k : Nat} :
    ∀ q ∈ dictDel m k, q ∈ m := by
  induction m with
  | nil => intro q hq; simp [dictDel] at hq
  | cons p rest ih =>
    obtain ⟨k', v'⟩ := p
    intro q hq
    rw [dictDel] at hq
    by_cases hk : k' = k
    · rw [if_pos hk] at hq
      exact List.mem_cons_of_mem _ hq
    · rw [if_neg hk] at hq
      rcases List.mem_cons.mp hq with h1 | h1
      · exact List.mem_cons.mpr (Or.inl h1)
      · exact List.mem_cons_of_mem _ (ih q h1)

/-- Deleting a key from a dict erases exactly that key from the key list. -/
theorem keys_dictDel_erase {α : Type} (m : List (Nat × α)) (k : Nat) :
    (dictDel m k).map Prod.fst = (m.map Prod.fst).erase k := by
  induction m with
  | nil => simp [dictDel]
  | cons p rest ih =>
    obtain ⟨k', v'⟩ := p
    rw [dictDel]
    by_cases hk : k' = k
    · rw [if_pos hk]
      simp only [List.map_cons]
      rw [hk, List.erase_cons_head]
    · rw [if_neg hk]
      simp only [List.map_cons]
      rw [List.erase_cons_tail (by simp [hk]), ih]

/-- A present key has a value. -/
theorem mem_keys_isSome {α : Type} {m : List (Nat × α)} {k : Nat}
    (h : k ∈ m.map Prod.fst) : ∃ v, dictGet? m k = some v := by
  induction m with
  | nil => simp at h
  | cons p rest ih =>
    obtain ⟨k', v'⟩ := p
    rw [dictGet?]
    by_cases hk : k' = k
    · exact ⟨v', by rw [if_pos hk]⟩
    · rw [if_neg hk]
      apply ih
      simp only [List.map_cons, List.mem_cons] at h
      rcases h with h1 | h1
      · exact absurd h1.symm hk
      · exact h1

/-- Each free block is in the lookup of some class (duplicate-free keys). -/
theorem mem_freeBlocks_lookup {m : FreeTable} (hnd : (m.map Prod.fst).Nodup) {b : Block}
    (hb : b ∈ freeBlocks m) : ∃ s, b ∈ freeLookup m s := by
  unfold freeBlocks at hb
  rw [List.mem_flatten] at hb
  obtain ⟨l, hl, hbl⟩ := hb
  rw [List.mem_map] at hl
  obtain ⟨p, hp, hpl⟩ := hl
  refine ⟨p.1, ?_⟩
  have hget := mem_entry_lookup hnd hp
  unfold freeLookup
  rw [hget]
  rw [← hpl] at hbl
  exact hbl

/-- Two blocks in two different size classes contribute two to any count
they both satisfy. -/
theorem countP_two_lookups (m : FreeTable) {s t : Nat} (hst : s ≠ t) {b c : Block}
    (hb : b ∈ freeLookup m s) (hc : c ∈ freeLookup m t) (p : Block → Bool)
    (hpb : p b = true) (hpc : p c = true) :
    2 ≤ (freeBlocks m).countP p := by
  induction m with
  | nil => simp [freeLookup, dictGet?] at hb
  | cons q rest ih =>
    obtain ⟨k', v'⟩ := q
    unfold freeLookup at hb hc
    rw [dictGet?] at hb hc
    unfold freeBlocks
    simp only [List.map_cons, List.flatten_cons, List.countP_append]
    by_cases hks : k' = s
    · rw [if_pos hks] at hb
      rw [if_neg (by omega)] at hc
      have h1 : 0 < v'.countP p := by
        rw [List.countP_pos_iff]
        exact ⟨b, hb, hpb⟩
      have h2 : 0 < (freeLookup rest t).countP p := by
        rw [List.countP_pos_iff]
        exact ⟨c, hc, hpc⟩
      have h3 := countP_lookup_le rest t p
      unfold freeBlocks at h3
      omega
    · rw [if_neg hks] at hb
      by_cases hkt : k' = t
      · rw [if_pos hkt] at hc
        have h1 : 0 < v'.countP p := by
          rw [List.countP_pos_iff]
          exact ⟨c, hc, hpc⟩
        have h2 : 0 < (freeLookup rest s).countP p := by
          rw [List.countP_pos_iff]
          exact ⟨b, hb, hpb⟩
        have h3 := countP_lookup_le rest s p
        unfold freeBlocks at h3
        omega
      · rw [if_neg hkt] at hc
        have := ih hb hc
        unfold freeBlocks at this
        omega

/-- Aligned dyadic intervals are laminar: a small one meeting a large one
is contained in it. -/
theorem dyadic_nested {i j a c x : Nat} (hij : i ≤ j) (ha : 2 ^ i ∣ a) (hc : 2 ^ j ∣ c)
    (h1 : a ≤ x) (h2 : x < a + 2 ^ i) (h3 : c ≤ x) (h4 : x < c + 2 ^ j) :
    c ≤ a ∧ a + 2 ^ i ≤ c + 2 ^ j := by
  have hpow : (0:Nat) < 2 ^ j := pow_pos (by norm_num) j
  have hmd : 2 ^ i ∣ a % 2 ^ j := by
    have hd : (2:Nat) ^ i ∣ 2 ^ j := pow_dvd_pow 2 hij
    rw [Nat.dvd_mod_iff hd]
    exact ha
  have hmlt : a % 2 ^ j < 2 ^ j := Nat.mod_lt _ hpow
  have hmle : a % 2 ^ j + 2 ^ i ≤ 2 ^ j := by
    obtain ⟨u, hu⟩ := hmd
    have hsplit : (2:Nat) ^ j = 2 ^ i * 2 ^ (j - i) := by
      rw [← pow_add]
      congr 1
      omega
    have hulr : u < 2 ^ (j - i) := by
      by_contra hcon
      push_neg at hcon
      have : 2 ^ i * 2 ^ (j - i) ≤ 2 ^ i * u := Nat.mul_le_mul_left _ hcon
      rw [← hsplit, ← hu] at this
      omega
    have : 2 ^ i * (u + 1) ≤ 2 ^ i * 2 ^ (j - i) := Nat.mul_le_mul_left _ hulr
    rw [← hsplit] at this
    have hx1 : 2 ^ i * (u + 1) = 2 ^ i * u + 2 ^ i := by ring
    omega
  have hdm := Nat.div_add_mod a (2 ^ j)
  obtain ⟨q2, hq2⟩ := hc
  have hxa1 : 2 ^ j * (a / 2 ^ j) ≤ x := by omega
  have hxa2 : x < 2 ^ j * (a / 2 ^ j) + 2 ^ j := by omega
  have hxc1 : 2 ^ j * q2 ≤ x := by omega
  have hxc2 : x < 2 ^ j * q2 + 2 ^ j := by omega
  have hq : a / 2 ^ j = q2 := by
    by_contra hne
    rcases Nat.lt_or_ge (a / 2 ^ j) q2 with hlt | hge
    · have : 2 ^ j * (a / 2 ^ j + 1) ≤ 2 ^ j * q2 := Nat.mul_le_mul_left _ hlt
      have hx1 : 2 ^ j * (a / 2 ^ j + 1) = 2 ^ j * (a / 2 ^ j) + 2 ^ j := by ring
      omega
    · have hlt2 : q2 < a / 2 ^ j := lt_of_le_of_ne hge (fun he => hne he.symm)
      have : 2 ^ j * (q2 + 1) ≤ 2 ^ j * (a / 2 ^ j) := Nat.mul_le_mul_left _ hlt2
      have hx1 : 2 ^ j * (q2 + 1) = 2 ^ j * q2 + 2 ^ j := by ring
      omega
  rw [← hq] at hq2
  omega

/-- A successful or failing `allocate` call preserves the global invariant,
and any granted block is a well-placed block of the rounded size. -/
theorem allocate_preserves_inv (sys : BuddySystem) (n : Int) (h : AllocInv sys) :
    AllocInv (allocate sys n).2 ∧ (allocate sys n).2.total_memory = sys.total_memory ∧
    (∀ blk : Block, (allocate sys n).1 = some blk →
      find_nearest_power_of_two n ∣ blk.1 ∧
      blk.2 = blk.1 + find_nearest_power_of_two n ∧ blk.2 ≤ sys.total_memory) := by
  obtain ⟨hpow, hnd, hnda, hwf, hwa, hpart, hnp⟩ := h
  have hmain := allocLoop_inv sys.total_memory (find_nearest_power_of_two n) n
    sys.memory sys.allocated (find_nearest_pos n) hwf hnd hwa hnda
    (fun x hx => by rw [← blocksAt_eq_CC]; exact hpart x hx)
    (Or.inl (fun s b hb => noPairs_lookup hnp hb))
  obtain ⟨hwf', hnd', hwa', hnda', hcc', hnpl', hblk'⟩ := hmain
  have hp1 : (allocate sys n).1 = (allocLoop sys.total_memory (find_nearest_power_of_two n) n
      sys.memory sys.allocated (find_nearest_pos n)).1 := rfl
  have hp2 : (allocate sys n).2.memory = (allocLoop sys.total_memory
      (find_nearest_power_of_two n) n sys.memory sys.allocated (find_nearest_pos n)).2.1 := rfl
  have hp3 : (allocate sys n).2.allocated = (allocLoop sys.total_memory
      (find_nearest_power_of_two n) n sys.memory sys.allocated (find_nearest_pos n)).2.2 := rfl
  have hp4 : (allocate sys n).2.total_memory = sys.total_memory := rfl
  refine ⟨⟨by rw [hp4]; exact hpow, by rw [hp2]; exact hnd', by rw [hp3]; exact hnda',
    by rw [hp2, hp4]; exact hwf', by rw [hp3, hp4]; exact hwa', ?_, ?_⟩, hp4, ?_⟩
  · intro x hx
    rw [hp4] at hx
    rw [blocksAt_eq_CC, hp2, hp3]
    exact hcc' x hx
  · rw [hp2]
    exact noPairs_of_lookup hnd' hnpl'
  · intro blk hblk
    rw [hp1] at hblk
    obtain ⟨hd, he, hle, _, _, _⟩ := hblk' blk hblk
    exact ⟨hd, he, hle⟩

/-- An address-based deallocation request preserves the global invariant;
on a hit it removes exactly the requested key from the allocation table,
and on a miss it is the identity. -/
theorem deallocOp_preserves (sys : BuddySystem) (a : Nat) (h : AllocInv sys) :
    AllocInv (deallocOp sys a) ∧ (deallocOp sys a).total_memory = sys.total_memory ∧
    (∀ rb : Int × Nat, dictGet? sys.allocated a = some rb →
      (deallocOp sys a).allocated.map Prod.fst = (sys.allocated.map Prod.fst).erase a) ∧
    (dictGet? sys.allocated a = none → deallocOp sys a = sys) := by
  obtain ⟨hpow, hnd, hnda, hwf, hwa, hpart, hnp⟩ := h
  unfold deallocOp deallocate_block
  cases hga : dictGet? sys.allocated a with
  | none =>
    refine ⟨⟨hpow, hnd, hnda, hwf, hwa, hpart, hnp⟩, rfl, ?_, fun _ => rfl⟩
    intro rb hrb
    cases hrb
  | some rb =>
    simp only
    have hentry : (a, rb) ∈ sys.allocated := dictGet?_mem hga
    obtain ⟨hrpos, hrpow, hrdvd, hrle⟩ := hwa (a, rb) hentry
    simp only at hrpos hrpow hrdvd hrle
    have hsz : 0 < (a, a + rb.2).2 - (a, a + rb.2).1 := by
      simp only
      omega
    rw [deallocate, dif_pos hsz]
    have hs : (a, a + rb.2).2 - (a, a + rb.2).1 = rb.2 := by
      simp only
      omega
    have hwf1 : WfMem sys.total_memory
        (memAppend sys.memory ((a, a + rb.2).2 - (a, a + rb.2).1) (a, a + rb.2)) := by
      apply wfMem_memAppend hwf
      rw [hs]
      exact ⟨rfl, hrpos, hrpow, hrdvd, hrle⟩
    have hnd1 : ((memAppend sys.memory ((a, a + rb.2).2 - (a, a + rb.2).1)
        (a, a + rb.2)).map Prod.fst).Nodup := keys_nodup_dictSet _ _ hnd
    have hcc1 : ∀ x, x < sys.total_memory →
        CC (memAppend sys.memory ((a, a + rb.2).2 - (a, a + rb.2).1) (a, a + rb.2))
          (dictDel sys.allocated (a, a + rb.2).1) x = 1 := by
      intro x hx
      unfold CC
      have h1 := countP_freeBlocks_memAppend (containsB x) sys.memory
        ((a, a + rb.2).2 - (a, a + rb.2).1) (a, a + rb.2)
      have h2 := countP_allocBlocks_dictDel (containsB x) hga
      have h3 := hpart x hx
      rw [blocksAt_eq_CC] at h3
      unfold CC at h3
      have h5 : dictDel sys.allocated (a, a + rb.2).1 = dictDel sys.allocated a := rfl
      rw [h1, h5]
      have h4 : ((a : Nat), a + rb.2) = (a, a + rb.2) := rfl
      rw [h4] at h2
      omega
    have honly1 : ∀ s : Nat, ∀ b ∈ freeLookup (memAppend sys.memory
          ((a, a + rb.2).2 - (a, a + rb.2).1) (a, a + rb.2)) s,
        (b.1 ^^^ s, (b.1 ^^^ s) + s) ∈ freeLookup (memAppend sys.memory
          ((a, a + rb.2).2 - (a, a + rb.2).1) (a, a + rb.2)) s →
        s = (a, a + rb.2).2 - (a, a + rb.2).1 ∧
          (b = (a, a + rb.2) ∨
            b = ((a, a + rb.2).1 ^^^ ((a, a + rb.2).2 - (a, a + rb.2).1),
              ((a, a + rb.2).1 ^^^ ((a, a + rb.2).2 - (a, a + rb.2).1)) +
                ((a, a + rb.2).2 - (a, a + rb.2).1))) := by
      set blk0 : Block := (a, a + rb.2) with hblk0
      set s0 : Nat := blk0.2 - blk0.1 with hs0
      intro s b hb hbd
      by_cases hse : s = s0
      · subst hse
        rw [freeLookup_memAppend_self] at hb hbd
        refine ⟨rfl, ?_⟩
        rcases List.mem_append.mp hb with hbm | hbm
        · rcases List.mem_append.mp hbd with hdm | hdm
          · exact absurd hdm (noPairs_lookup hnp hbm)
          · right
            have hdm' := List.mem_singleton.mp hdm
            obtain ⟨hbb2, _, _, _, _⟩ := wfMem_lookup hwf hbm
            have h5 := congrArg Prod.fst hdm'
            simp only at h5
            rw [Prod.ext_iff]
            constructor
            · simp only
              rw [← h5, Nat.xor_assoc, Nat.xor_self, Nat.xor_zero]
            · simp only
              rw [← h5, Nat.xor_assoc, Nat.xor_self, Nat.xor_zero, hbb2]
        · exact Or.inl (List.mem_singleton.mp hbm)
      · rw [freeLookup_memAppend_ne _ _ _ _ hse] at hb hbd
        exact absurd hbd (noPairs_lookup hnp hb)
    have hmerge := merge_inv sys.total_memory (dictDel sys.allocated (a, a + rb.2).1)
      (memAppend sys.memory ((a, a + rb.2).2 - (a, a + rb.2).1) (a, a + rb.2))
      ((a, a + rb.2).2 - (a, a + rb.2).1) (a, a + rb.2)
      (mem_freeLookup_memAppend _ _ _) hsz hwf1 hnd1 hcc1 honly1
    obtain ⟨hwf2, hnd2, hcc2, hnpl2⟩ := hmerge
    refine ⟨⟨hpow, hnd2, keys_nodup_dictDel _ hnda,
      hwf2, fun q hq => hwa q (dictDel_mem_subset q hq), ?_, noPairs_of_lookup hnd2 hnpl2⟩,
      rfl, ?_, ?_⟩
    · intro x hx
      rw [blocksAt_eq_CC]
      exact hcc2 x hx
    · intro rb' _
      exact keys_dictDel_erase sys.allocated a
    · intro hnone
      cases hnone

/-- A freshly constructed allocator with power-of-two capacity satisfies the
global invariant. -/
theorem init_inv (k : Nat) : AllocInv (init (2 ^ k)) := by
  have htpos : (0:Nat) < 2 ^ k := pow_pos (by norm_num) k
  refine ⟨(isPow2_iff _).mpr ⟨k, rfl⟩, by simp [init], by simp [init], ?_, ?_, ?_, ?_⟩
  · intro p hp b hb
    simp only [init, List.mem_singleton] at hp
    subst hp
    simp only [List.mem_singleton] at hb
    subst hb
    exact ⟨by simp, htpos, (isPow2_iff _).mpr ⟨k, rfl⟩, dvd_zero _, le_refl (2 ^ k)⟩
  · intro q hq
    simp [init] at hq
  · intro x hx
    simp only [init] at hx ⊢
    unfold blocksAt freeBlocks allocBlocks
    simp only [List.map_cons, List.map_nil, List.flatten_cons, List.flatten_nil,
      List.append_nil, List.nil_append, List.countP_cons, List.countP_nil]
    have hcx : containsB x (0, 2 ^ k) = true := by
      simp only [containsB, decide_eq_true_eq]
      omega
    rw [hcx]
    rfl
  · intro p hp b hb
    simp only [init, List.mem_singleton] at hp
    subst hp
    simp only [List.mem_singleton] at hb
    subst hb
    simp only
    rw [Nat.zero_xor]
    have hlk : freeLookup (init (2 ^ k)).memory (2 ^ k) = [(0, 2 ^ k)] := by
      unfold init freeLookup
      rw [dictGet?, if_pos rfl]
      rfl
    intro hmem
    rw [hlk] at hmem
    simp only [List.mem_singleton, Prod.mk.injEq] at hmem
    omega

/-- Any single allocator operation preserves the invariant and the
capacity. -/
theorem step_inv {sys sys' : BuddySystem} (hstep : Step sys sys') (h : AllocInv sys) :
    AllocInv sys' ∧ sys'.total_memory = sys.total_memory := by
  cases hstep with
  | alloc n =>
    obtain ⟨h1, h2, _⟩ := allocate_preserves_inv sys n h
    exact ⟨h1, h2⟩
  | dealloc a =>
    obtain ⟨h1, h2, _, _⟩ := deallocOp_preserves sys a h
    exact ⟨h1, h2⟩

/-- Every state reachable from a power-of-two allocator satisfies the
global invariant and keeps the capacity. -/
theorem reachable_inv (k : Nat) (sys : BuddySystem) (h : Reachable (2 ^ k) sys) :
    AllocInv sys ∧ sys.total_memory = 2 ^ k := by
  unfold Reachable at h
  induction h with
  | refl => exact ⟨init_inv k, rfl⟩
  | tail hpre hstep ih =>
    obtain ⟨h1, h2⟩ := step_inv hstep ih.1
    exact ⟨h1, h2.trans ih.2⟩

/-- If every size class on the scan grid is empty, the split scan fails and
returns the table unchanged. -/
theorem splitScan_stuck (total : Nat) (mem : FreeTable) (larger : Nat) (h : 0 < larger)
    (hemp : ∀ i : Nat, larger * 2 ^ i ≤ total → freeLookup mem (larger * 2 ^ i) = []) :
    splitScan total mem larger h = (false, mem) := by
  cases hres : splitScan total mem larger h with
  | mk b m' =>
    cases b with
    | true =>
      obtain ⟨j, blk, rest, _, hjle, hlk, _⟩ := splitScan_true_spec total mem larger h m' hres
      rw [hemp j hjle] at hlk
      cases hlk
    | false =>
      obtain ⟨hm, _⟩ := splitScan_false_spec total mem larger h m' hres
      rw [hm]

/-- **C1**: in every state reachable from a power-of-two capacity, the free
blocks of every size class together with the allocated blocks partition
`[0, totalCapacity)`: every block is a non-empty range inside the capacity,
and every address below the capacity lies in exactly one block. -/
theorem partition_invariant (k : Nat) (sys : BuddySystem) (h : Reachable (2 ^ k) sys) :
    sys.total_memory = 2 ^ k ∧
    (∀ b ∈ freeBlocks sys.memory ++ allocBlocks sys.allocated, b.1 < b.2 ∧ b.2 ≤ 2 ^ k) ∧
    (∀ x, x < 2 ^ k →
      (freeBlocks sys.memory ++ allocBlocks sys.allocated).countP (containsB x) = 1) := by
  obtain ⟨⟨hpow, hnd, hnda, hwf, hwa, hpart, hnp⟩, ht⟩ := reachable_inv k sys h
  refine ⟨ht, ?_, ?_⟩
  · intro b hb
    rcases List.mem_append.mp hb with hbf | hba
    · obtain ⟨s, hbl⟩ := mem_freeBlocks_lookup hnd hbf
      obtain ⟨h1, h2, _, _, h5⟩ := wfMem_lookup hwf hbl
      rw [← ht]
      omega
    · unfold allocBlocks at hba
      rw [List.mem_map] at hba
      obtain ⟨q, hq, hqe⟩ := hba
      obtain ⟨h1, _, _, h4⟩ := hwa q hq
      rw [← hqe, ← ht]
      simp only
      omega
  · intro x hx
    have hc := hpart x (by omega)
    unfold blocksAt at hc
    exact hc

/-- The partition property holds concretely after one allocation on a fresh
4-unit allocator: address 3 is covered exactly once. -/
theorem partition_invariant_witness :
    Reachable (2 ^ 2) (allocOp (init (2 ^ 2)) 1) ∧
    (freeBlocks (allocOp (init (2 ^ 2)) 1).memory ++
      allocBlocks (allocOp (init (2 ^ 2)) 1).allocated).countP (containsB 3) = 1 :=
  ⟨Relation.ReflTransGen.single (Step.alloc (init (2 ^ 2)) 1),
   (partition_invariant 2 (allocOp (init (2 ^ 2)) 1)
      (Relation.ReflTransGen.single (Step.alloc (init (2 ^ 2)) 1))).2.2 3 (by norm_num)⟩

/-- **C8**: in every reachable state of a power-of-two allocator, a granted
block starts at a multiple of the rounded block size and has exactly that
size, and every block recorded in either table has power-of-two size and a
start address aligned to its size. -/
theorem alloc_alignment (k : Nat) (sys : BuddySystem) (h : Reachable (2 ^ k) sys) (n : Int) :
    (∀ blk : Block, (allocate sys n).1 = some blk →
      blk.1 % find_nearest_power_of_two n = 0 ∧
      blk.2 = blk.1 + find_nearest_power_of_two n) ∧
    (∀ p ∈ sys.memory, ∀ b ∈ p.2,
      isPow2 p.1 = true ∧ b.2 = b.1 + p.1 ∧ b.1 % p.1 = 0) ∧
    (∀ q ∈ sys.allocated, isPow2 q.2.2 = true ∧ q.1 % q.2.2 = 0) := by
  obtain ⟨hinv, ht⟩ := reachable_inv k sys h
  refine ⟨?_, ?_, ?_⟩
  · intro blk hblk
    obtain ⟨_, _, hgrant⟩ := allocate_preserves_inv sys n hinv
    obtain ⟨hd, he, _⟩ := hgrant blk hblk
    obtain ⟨c, hc⟩ := hd
    exact ⟨by rw [hc, Nat.mul_mod_right], he⟩
  · intro p hp b hb
    obtain ⟨h1, _, h3, h4, _⟩ := hinv.2.2.2.1 p hp b hb
    obtain ⟨c, hc⟩ := h4
    exact ⟨h3, h1, by rw [hc, Nat.mul_mod_right]⟩
  · intro q hq
    obtain ⟨_, h2, h3, _⟩ := hinv.2.2.2.2.1 q hq
    obtain ⟨c, hc⟩ := h3
    exact ⟨h2, by rw [hc, Nat.mul_mod_right]⟩

/-- Alignment shown concretely: on a fresh 16-unit allocator, `allocate(3)`
grants `[0, 4)`, whose address is a multiple of the rounded size 4. -/
theorem alloc_alignment_witness :
    Reachable (2 ^ 4) (init (2 ^ 4)) ∧
    (allocate (init (2 ^ 4)) 3).1 = some (0, 4) ∧
    (0 : Nat) % find_nearest_power_of_two 3 = 0 ∧
    (4 : Nat) = 0 + find_nearest_power_of_two 3 :=
  ⟨Relation.ReflTransGen.refl,
   by rw [← allocateF_eq]; decide,
   (alloc_alignment 4 (init (2 ^ 4)) Relation.ReflTransGen.refl 3).1 (0, 4)
     (by rw [← allocateF_eq]; decide)⟩

/-- **C7**: `allocate` reports out of memory (returns no block) exactly when
the rounded size exceeds the capacity, or the rounded size class is empty
and every strictly larger class on the doubling scan grid up to the
capacity is empty too (no donor can be split); in particular `allocate(20)`
on a fresh 16-unit allocator fails because the rounded size is 32. -/
theorem alloc_out_of_memory_iff :
    (∀ (sys : BuddySystem) (n : Int),
      (allocate sys n).1 = none ↔
        (sys.total_memory < find_nearest_power_of_two n ∨
          (freeLookup sys.memory (find_nearest_power_of_two n) = [] ∧
            ∀ i : Nat, find_nearest_power_of_two n * 2 * 2 ^ i ≤ sys.total_memory →
              freeLookup sys.memory (find_nearest_power_of_two n * 2 * 2 ^ i) = []))) ∧
    find_nearest_power_of_two 20 = 32 ∧ (allocate (init 16) 20).1 = none := by
  refine ⟨?_, by rw [find_nearestF_eq]; decide, by rw [← allocateF_eq]; decide⟩
  intro sys n
  have hbs := find_nearest_pos n
  have hp1 : (allocate sys n).1 = (allocLoop sys.total_memory (find_nearest_power_of_two n) n
      sys.memory sys.allocated (find_nearest_pos n)).1 := rfl
  constructor
  · intro hnone
    by_cases hle : find_nearest_power_of_two n ≤ sys.total_memory
    · right
      constructor
      · by_contra hne
        have hsome := allocLoop_progress sys.total_memory (find_nearest_power_of_two n) n
          sys.memory sys.allocated (find_nearest_pos n) hle
          ⟨0, by simpa using hle, by simpa using hne⟩
        rw [hp1] at hnone
        rw [hnone] at hsome
        cases hsome
      · intro i hi
        by_contra hne
        have h2 : find_nearest_power_of_two n * 2 * 2 ^ i =
            find_nearest_power_of_two n * 2 ^ (i + 1) := by
          rw [pow_succ]
          ring
        have hsome := allocLoop_progress sys.total_memory (find_nearest_power_of_two n) n
          sys.memory sys.allocated (find_nearest_pos n) hle
          ⟨i + 1, by rw [← h2]; exact hi, by rw [← h2]; exact hne⟩
        rw [hp1] at hnone
        rw [hnone] at hsome
        cases hsome
    · left
      omega
  · intro hcase
    rcases hcase with hlt | ⟨h0, hrest⟩
    · rw [hp1, allocLoop_eq_oob (by omega)]
    · by_cases hle : find_nearest_power_of_two n ≤ sys.total_memory
      · have hsp : splitScan sys.total_memory sys.memory
            (find_nearest_power_of_two n * 2) (by omega) = (false, sys.memory) :=
          splitScan_stuck _ _ _ _ hrest
        rw [hp1, allocLoop_eq_fail hle h0 hsp]
      · rw [hp1, allocLoop_eq_oob hle]

/-- In a fully deallocated well-formed state the free table is completely
coalesced: the only free block is `[0, total)` in the capacity class. -/
theorem coalesced_final {total : Nat} {m : FreeTable}
    (hpow : isPow2 total = true)
    (hwf : WfMem total m) (hnd : (m.map Prod.fst).Nodup)
    (hcc : ∀ x, x < total → (freeBlocks m).countP (containsB x) = 1)
    (hnp : NoPairs m) :
    ∀ s : Nat, freeLookup m s = if s = total then [(0, total)] else [] := by
  obtain ⟨k, hk⟩ := (isPow2_iff total).mp hpow
  have htpos : 0 < total := by rw [hk]; exact pow_pos (by norm_num) k
  have hclass : ∀ s : Nat, ∀ b ∈ freeLookup m s, s = total := by
    intro s
    induction s using Nat.strong_induction_on with
    | _ s ih =>
      intro b hb
      by_contra hne
      obtain ⟨hb2, hspos, hspow, hsdvd, hble⟩ := wfMem_lookup hwf hb
      obtain ⟨i, hi⟩ := (isPow2_iff s).mp hspow
      subst hi
      have hslt : 2 ^ i < total := by omega
      have hik : i < k := (Nat.pow_lt_pow_iff_right (show 1 < 2 by norm_num)).mp (by rw [← hk]; exact hslt)
      obtain ⟨p, hp2, hcase⟩ : ∃ p : Nat, 2 ^ (i + 1) ∣ p ∧
          ((b.1 = p ∧ b.1 ^^^ 2 ^ i = p + 2 ^ i) ∨ (b.1 = p + 2 ^ i ∧ b.1 ^^^ 2 ^ i = p)) := by
        rcases xor_buddy_cases hsdvd with ⟨hd, hx⟩ | ⟨hd, hge, hx⟩
        · exact ⟨b.1, hd, Or.inl ⟨rfl, hx⟩⟩
        · exact ⟨b.1 - 2 ^ i, hd, Or.inr ⟨by omega, hx⟩⟩
      have h2i : (2:Nat) ^ (i + 1) = 2 * 2 ^ i := by rw [pow_succ]; ring
      have hb1lt : b.1 < total := by omega
      have hptot : p + 2 ^ (i + 1) ≤ total := by
        obtain ⟨u, hu⟩ := hp2
        have hdt : 2 ^ (i + 1) ∣ total := by rw [hk]; exact pow_dvd_pow 2 (by omega)
        obtain ⟨w, hw⟩ := hdt
        have hplt : p < total := by
          rcases hcase with ⟨h1, _⟩ | ⟨h1, _⟩ <;> omega
        have huw : u < w := by
          by_contra hcon
          push_neg at hcon
          have h7 : 2 ^ (i + 1) * w ≤ 2 ^ (i + 1) * u := Nat.mul_le_mul_left _ hcon
          omega
        have h8 : 2 ^ (i + 1) * (u + 1) ≤ 2 ^ (i + 1) * w := Nat.mul_le_mul_left _ huw
        have hexp : 2 ^ (i + 1) * (u + 1) = 2 ^ (i + 1) * u + 2 ^ (i + 1) := by ring
        omega
      have ha'lt : b.1 ^^^ 2 ^ i < total := by
        rcases hcase with ⟨_, h2⟩ | ⟨_, h2⟩ <;> omega
      have hcov := hcc (b.1 ^^^ 2 ^ i) ha'lt
      have hex : ∃ c ∈ freeBlocks m, containsB (b.1 ^^^ 2 ^ i) c = true := by
        rw [← List.countP_pos_iff]
        omega
      obtain ⟨c, hcF, hcP⟩ := hex
      obtain ⟨t', hcL⟩ := mem_freeBlocks_lookup hnd hcF
      obtain ⟨hc2, ht'pos, ht'pow, ht'dvd, hcle⟩ := wfMem_lookup hwf hcL
      obtain ⟨j, hj⟩ := (isPow2_iff t').mp ht'pow
      subst hj
      have hcP' : c.1 ≤ b.1 ^^^ 2 ^ i ∧ b.1 ^^^ 2 ^ i < c.2 := by
        simpa [containsB] using hcP
      have hts : 2 ^ i ≤ 2 ^ j := by
        by_contra hlt
        push_neg at hlt
        have hjt := ih (2 ^ j) hlt c hcL
        omega
      have hij : i ≤ j := (Nat.pow_le_pow_iff_right (show 1 < 2 by norm_num)).mp hts
      by_cases hij2 : i = j
      · -- the cover has the same size: it is exactly the missing buddy
        subst hij2
        have hpi : 2 ^ i ∣ p := dvd_trans (pow_dvd_pow 2 (Nat.le_succ i)) hp2
        have hdvd2 : 2 ^ i ∣ (b.1 ^^^ 2 ^ i) := by
          rcases hcase with ⟨_, h2⟩ | ⟨_, h2⟩
          · rw [h2]; exact Nat.dvd_add hpi dvd_rfl
          · rw [h2]; exact hpi
        have hceq : c.1 = b.1 ^^^ 2 ^ i := by
          have hsub : 2 ^ i ∣ (b.1 ^^^ 2 ^ i) - c.1 := Nat.dvd_sub' hdvd2 ht'dvd
          have hlt2 : (b.1 ^^^ 2 ^ i) - c.1 < 2 ^ i := by omega
          have h0 := Nat.eq_zero_of_dvd_of_lt hsub hlt2
          omega
        have hcblk : c = (b.1 ^^^ 2 ^ i, (b.1 ^^^ 2 ^ i) + 2 ^ i) := by
          rw [Prod.ext_iff]
          exact ⟨hceq, by omega⟩
        have hnot := noPairs_lookup hnp hb
        rw [← hcblk] at hnot
        exact hnot hcL
      · -- the cover is strictly larger: it swallows the parent, so the
        -- address of b is covered twice
        have hij3 : i + 1 ≤ j := by omega
        have hin1 : p ≤ b.1 ^^^ 2 ^ i := by rcases hcase with ⟨_, h2⟩ | ⟨_, h2⟩ <;> omega
        have hin2 : b.1 ^^^ 2 ^ i < p + 2 ^ (i + 1) := by
          rcases hcase with ⟨_, h2⟩ | ⟨_, h2⟩ <;> omega
        have hnest := dyadic_nested hij3 hp2 ht'dvd hin1 hin2 hcP'.1 (by omega)
        have hbin : c.1 ≤ b.1 ∧ b.1 < c.2 := by
          rcases hcase with ⟨h1, _⟩ | ⟨h1, _⟩ <;> omega
        have hPb : containsB b.1 b = true := by
          simp only [containsB, decide_eq_true_eq]
          omega
        have hPc : containsB b.1 c = true := by
          simp only [containsB, decide_eq_true_eq]
          omega
        have h2cnt := countP_two_lookups m (show (2:Nat) ^ i ≠ 2 ^ j from
            fun he => hij2 (Nat.pow_right_injective (show 2 ≤ 2 from le_refl 2) he))
          hb hcL (containsB b.1) hPb hPc
        have h9 := hcc b.1 hb1lt
        omega
  intro s
  by_cases hs : s = total
  · rw [if_pos hs, hs]
    have hmem : ∀ b ∈ freeLookup m total, b = (0, total) := by
      intro b hb
      obtain ⟨hb2, _, _, _, hble⟩ := wfMem_lookup hwf hb
      obtain ⟨b1, b2⟩ := b
      simp only at hb2 hble
      simp only [Prod.mk.injEq]
      omega
    have hc0cnt := hcc 0 htpos
    have hex : ∃ c ∈ freeBlocks m, containsB 0 c = true := by
      rw [← List.countP_pos_iff]
      omega
    obtain ⟨c, hcF, hcP⟩ := hex
    obtain ⟨t', hcL⟩ := mem_freeBlocks_lookup hnd hcF
    have ht'eq : t' = total := hclass t' c hcL
    rw [ht'eq] at hcL
    have hc0 : c = (0, total) := hmem c hcL
    rw [hc0] at hcL
    have hall : ∀ b ∈ freeLookup m total, containsB 0 b = true := by
      intro b hb
      rw [hmem b hb]
      simp only [containsB, decide_eq_true_eq]
      omega
    have hlen1 : (freeLookup m total).countP (containsB 0) = (freeLookup m total).length :=
      List.countP_eq_length.mpr hall
    have hle1 := countP_lookup_le m total (containsB 0)
    have hpos1 : 0 < (freeLookup m total).length := List.length_pos_of_mem hcL
    have hlen : (freeLookup m total).length = 1 := by omega
    obtain ⟨x, hx⟩ := List.length_eq_one.mp hlen
    rw [hx]
    have hxm : x ∈ freeLookup m total := by rw [hx]; exact List.mem_singleton_self x
    rw [hmem x hxm]
  · rw [if_neg hs]
    rw [List.eq_nil_iff_forall_not_mem]
    intro b hb
    exact hs (hclass s b hb)

/-- Deallocating every currently allocated address, in any order, empties
the allocation table while keeping the invariant. -/
theorem dealloc_all (k : Nat) : ∀ (order : List Nat) (sys : BuddySystem),
    AllocInv sys → sys.total_memory = 2 ^ k →
    order.Perm (sys.allocated.map Prod.fst) →
    AllocInv (order.foldl deallocOp sys) ∧
    (order.foldl deallocOp sys).total_memory = 2 ^ k ∧
    (order.foldl deallocOp sys).allocated = [] := by
  intro order
  induction order with
  | nil =>
    intro sys h ht hperm
    have hkeys : sys.allocated.map Prod.fst = [] := List.perm_nil.mp hperm.symm
    have hnil : sys.allocated = [] := List.map_eq_nil_iff.mp hkeys
    exact ⟨h, ht, hnil⟩
  | cons a rest ih =>
    intro sys h ht hperm
    have ha : a ∈ sys.allocated.map Prod.fst := hperm.subset (List.mem_cons_self a rest)
    obtain ⟨rb, hrb⟩ := mem_keys_isSome ha
    obtain ⟨h1, h2, h3, _⟩ := deallocOp_preserves sys a h
    have hkeys := h3 rb hrb
    have hperm' : rest.Perm ((deallocOp sys a).allocated.map Prod.fst) := by
      rw [hkeys]
      have h4 := hperm.erase a
      rw [List.erase_cons_head] at h4
      exact h4
    have hfold : (a :: rest).foldl deallocOp sys = rest.foldl deallocOp (deallocOp sys a) := rfl
    rw [hfold]
    exact ih (deallocOp sys a) h1 (h2.trans ht) hperm'

/-- **C5** (counterexample): after allocating one unit from a fresh 2-unit
allocator and deallocating it again, the free blocks are fully coalesced
back to `[0, 2)` and the allocation table is empty, but the free-list dict
is *not* literally `{2: [[0, 2)]}`: the split left behind an empty size
class 1 that is never removed. -/
theorem roundtrip_counterexample :
    (deallocOp (allocOp (init 2) 1) 0).allocated = [] ∧
    freeLookup (deallocOp (allocOp (init 2) 1) 0).memory 2 = [(0, 2)] ∧
    freeLookup (deallocOp (allocOp (init 2) 1) 0).memory 1 = [] ∧
    (deallocOp (allocOp (init 2) 1) 0).memory ≠ [(2, [(0, 2)])] := by
  refine ⟨?_, ?_, ?_, ?_⟩ <;>
  · rw [deallocOpF_eq, allocOpF_eq]
    decide

/-- **C5** (amended): from any reachable state of a power-of-two allocator,
deallocating all allocated addresses in any order empties the allocation
table and fully coalesces the free lists: every size class reads as empty
except the capacity class, which holds exactly the block `[0, capacity)`. -/
theorem roundtrip_amended (k : Nat) (sys : BuddySystem) (h : Reachable (2 ^ k) sys)
    (order : List Nat) (hperm : order.Perm (sys.allocated.map Prod.fst)) :
    (order.foldl deallocOp sys).allocated = [] ∧
    (∀ s : Nat, freeLookup (order.foldl deallocOp sys).memory s =
      if s = 2 ^ k then [(0, 2 ^ k)] else []) := by
  obtain ⟨hinv, ht⟩ := reachable_inv k sys h
  obtain ⟨hinv', ht', hall⟩ := dealloc_all k order sys hinv ht hperm
  obtain ⟨hpow, hnd, _, hwf, _, hpart, hnp⟩ := hinv'
  refine ⟨hall, ?_⟩
  have hcc : ∀ x, x < (order.foldl deallocOp sys).total_memory →
      (freeBlocks (order.foldl deallocOp sys).memory).countP (containsB x) = 1 := by
    intro x hx
    have h5 := hpart x hx
    unfold blocksAt at h5
    rw [hall] at h5
    simpa [allocBlocks] using h5
  intro s
  have h6 := coalesced_final hpow hwf hnd hcc hnp s
  rw [ht'] at h6
  exact h6

/-- The amended round trip exercised concretely: allocate one unit from a
fresh 2-unit allocator, deallocate it, and the state is fully coalesced. -/
theorem roundtrip_amended_witness :
    Reachable (2 ^ 1) (allocOp (init (2 ^ 1)) 1) ∧
    ([0] : List Nat).Perm ((allocOp (init (2 ^ 1)) 1).allocated.map Prod.fst) ∧
    (([0] : List Nat).foldl deallocOp (allocOp (init (2 ^ 1)) 1)).allocated = [] ∧
    freeLookup (([0] : List Nat).foldl deallocOp (allocOp (init (2 ^ 1)) 1)).memory (2 ^ 1) =
      [(0, 2 ^ 1)] :=
  ⟨Relation.ReflTransGen.single (Step.alloc (init (2 ^ 1)) 1),
   by rw [allocOpF_eq]; decide,
   (roundtrip_amended 1 (allocOp (init (2 ^ 1)) 1)
      (Relation.ReflTransGen.single (Step.alloc (init (2 ^ 1)) 1)) [0]
      (by rw [allocOpF_eq]; decide)).1,
   by
     have h6 := (roundtrip_amended 1 (allocOp (init (2 ^ 1)) 1)
       (Relation.ReflTransGen.single (Step.alloc (init (2 ^ 1)) 1)) [0]
       (by rw [allocOpF_eq]; decide)).2 (2 ^ 1)
     rw [if_pos rfl] at h6
     exact h6⟩
